import Mathlib

/-!
# Shallow embedding of the wrts-client core (CeeblueTV/wrts-client)

This file embeds, as executable Lean definitions, the parts of the
wrts-client source that the verified properties below are about:

* `Source.fixTimestamp` and `Source.readVideo` (src/src/sources/Source.ts),
* the `Player` buffer-state machine (`_onTimeUpdate`, src/index.ts),
* `Metadata.fix` (src/src/media/Metadata.ts),
* the `RTSReader` demultiplexer (src/src/media/reader/RTSReader.ts),
* the `CMAFWriter` fragment writer (src/src/media/writer/CMAFWriter.ts),
* the sequence-skip and bandwidth-emulation steps of
  `HTTPAdaptiveSource._play` (src/src/sources/HTTPAdaptiveSource.ts),
* `Source.close` (src/src/sources/Source.ts).

JavaScript numbers are modelled as `Int` (all quantities involved are
integral in the claims under study); machine truncation is made explicit
(`% 2^32`) where a 32-bit field is written.  Mutation is modelled by
explicit state passing.
-/

namespace Wrts

/-- Media type, from `Media.Type` (AUDIO / VIDEO / DATA). -/
inductive MType
  | audio
  | video
  | data
deriving DecidableEq, Repr

/-- `TIMESTAMP_HOLE_TOLERANCE = 7` (src/src/sources/Source.ts line 18). -/
def TIMESTAMP_HOLE_TOLERANCE : Int := 7

/-- The fields of a `Media.Sample` that `Source.fixTimestamp` reads and
writes: `time` (ms) and the optional `duration` (ms). -/
structure TimedSample where
  time : Int
  duration : Option Int
deriving DecidableEq, Repr

/-- Result of `Source.fixTimestamp`: the (possibly repaired) sample, the
returned per-kind current time (`sample.time + (sample.duration ?? 0)`),
and the positive delta reported through `onAudioSkipping` /
`onVideoSkipping` when there is one.  The `Metadata.liveTime` upward
correction performed at the end of the source function only writes to the
metadata object and is not part of this result. -/
structure FixResult where
  sample : TimedSample
  next : Int
  skipping : Option Int
deriving DecidableEq, Repr

/-- Embedding of `Source.fixTimestamp` (src/src/sources/Source.ts
lines 551-603).  `delta = currentTime >= 0 ? sample.time - currentTime : 0`;
the repair branch runs when `delta` is nonzero and
`type === DATA ? delta < 0 : type !== AUDIO || delta < TIMESTAMP_HOLE_TOLERANCE`;
it sets `sample.time = currentTime` and, when `sample.duration` is set,
`sample.duration = max(1, duration + delta)`. -/
def fixTimestamp (type : MType) (currentTime : Int) (sample : TimedSample) : FixResult :=
  let delta : Int := if 0 ≤ currentTime then sample.time - currentTime else 0
  let fixed : TimedSample :=
    if delta ≠ 0 ∧
        (if type = MType.data then delta < 0
         else type ≠ MType.audio ∨ delta < TIMESTAMP_HOLE_TOLERANCE) then
      let newDuration : Int :=
        match sample.duration with
        | some d => max 1 (d + delta)
        | none => 0
      { time := currentTime
        duration := if newDuration ≠ 0 then some newDuration else sample.duration }
    else sample
  { sample := fixed
    next := fixed.time + fixed.duration.getD 0
    skipping :=
      if 0 < delta ∧ (type = MType.audio ∨ type = MType.video) then some delta
      else none }

/-- Result of one video ingest through `Source.readVideo`: the delivered
sample and the updated `_videoTime`. -/
structure VideoIngest where
  sample : TimedSample
  videoTime : Int
deriving DecidableEq, Repr

/-- Embedding of the sample path of `Source.readVideo`
(src/src/sources/Source.ts lines 493-532): a negative duration is
normalized to its absolute value and remembered as extendable, the sample
goes through `fixTimestamp`, and an extendable sample is stretched up to
`currentTime = max(audioTime, videoTime, dataTime)` when that maximum is
ahead of the repaired video time. -/
def readVideoStep (audioTime dataTime : Int) (videoTime : Int) (sample : TimedSample) :
    VideoIngest :=
  let extendable : Bool :=
    match sample.duration with
    | some d => decide (d < 0)
    | none => false
  let sample1 : TimedSample :=
    if extendable then { sample with duration := sample.duration.map (fun d => -d) }
    else sample
  let r := fixTimestamp MType.video videoTime sample1
  let newVideoTime := r.next
  let current := max (max audioTime newVideoTime) dataTime
  let delay := current - newVideoTime
  if extendable ∧ 0 < delay then
    { sample := { r.sample with duration := some (r.sample.duration.getD 0 + delay) }
      videoTime := current }
  else
    { sample := r.sample, videoTime := newVideoTime }

/-! ## Player buffer-state machine (src/index.ts, `_onTimeUpdate`) -/

/-- `BufferState` of the player (src/unnamed/part_001). -/
inductive BufferState
  | none
  | low
  | ok
  | high
deriving DecidableEq, Repr

/-- Embedding of the tail of `Player._onTimeUpdate` (src/index.ts
lines 1242-1264): the buffer-state re-evaluation given the thresholds
`_bufferLimitLow/Middle/High`, the current state and `bufferAmount`. -/
def nextBufferState (low mid high : Int) (st : BufferState) (amount : Int) : BufferState :=
  if low < amount then
    if high < amount then BufferState.high
    else if (if st = BufferState.low then mid < amount else amount < mid) then BufferState.ok
    else st
  else BufferState.low

/-! ## Source.close (src/src/sources/Source.ts lines 392-411) -/

/-- `SourceError` variants relevant to `close` (src/src/sources/Source.ts). -/
inductive SrcError
  | unexpected (detail : String)
  | request (detail : String)
  | malformed (detail : String)
  | resourceUnavailable
  | readerError (name : String)
deriving DecidableEq, Repr

/-- The error morphing done by `close`: a `Request error` whose lowercased
detail starts with `stream open failed` or `404` becomes
`Resource unavailable`. -/
def morphCloseError (e : SrcError) : SrcError :=
  match e with
  | SrcError.request detail =>
      let d := detail.toLower
      if d.startsWith "stream open failed" ∨ d.startsWith "404" then
        SrcError.resourceUnavailable
      else SrcError.request detail
  | e => e

/-- The fields of `Source` that `close` touches. -/
structure SourceCloseState where
  closed : Bool
  selectedAudio : Option Int
  selectedVideo : Option Int
  trackIds : List Int
  firstSamples : Option (List (Int × TimedSample))
  lastStalls : Int
  trackRequestPending : Bool
deriving DecidableEq, Repr

/-- Embedding of `Source.close` (src/src/sources/Source.ts lines 392-411).
Returns the new state and `some e` when `onClose(e)` fired, `none` when the
call returned immediately because the source was already closed. -/
def sourceClose (st : SourceCloseState) (error : Option SrcError) :
    SourceCloseState × Option (Option SrcError) :=
  if st.closed then (st, Option.none)
  else
    ({ closed := true
       selectedAudio := Option.none
       selectedVideo := Option.none
       trackIds := []
       firstSamples := Option.none
       lastStalls := 0
       trackRequestPending := false },
     some (error.map morphCloseError))

/-- Fold a sequence of `close(error?)` calls, counting `onClose` firings. -/
def sourceCloseRuns (st : SourceCloseState) (errors : List (Option SrcError)) :
    SourceCloseState × Nat :=
  errors.foldl
    (fun acc e =>
      let r := sourceClose acc.1 e
      (r.1, acc.2 + (if r.2.isSome then 1 else 0)))
    (st, 0)

/-! ## Metadata.fix (src/src/media/Metadata.ts lines 169-201)

Track objects live in an immutable `pool`; a track is designated by its
pool index, so that the mutable `up`/`down` pointers can be modelled as
functions from pool index to optional pool index.  The JS `Map<id, Track>`
is an insertion-ordered association list whose `set` replaces the value in
place when the key exists. -/

/-- The `MediaTrack` fields that `Metadata.fix` reads. -/
structure MediaTrack where
  id : Int
  type : MType
  bandwidth : Int
deriving DecidableEq, Repr

instance : Inhabited MediaTrack := ⟨⟨0, MType.data, 0⟩⟩

/-- Track record at a pool index. -/
def trackAt (pool : List MediaTrack) (i : Nat) : MediaTrack :=
  pool.getD i default

/-- JS `Map.set`: replace in place when the key exists, append otherwise. -/
def mapSet (m : List (Int × Nat)) (k : Int) (v : Nat) : List (Int × Nat) :=
  match m with
  | [] => [(k, v)]
  | (k0, v0) :: rest => if k0 = k then (k, v) :: rest else (k0, v0) :: mapSet rest k v

/-- JS `Map.get` on the association-list model. -/
def mapGet (m : List (Int × Nat)) (k : Int) : Option Nat :=
  match m with
  | [] => Option.none
  | (k0, v0) :: rest => if k0 = k then some v0 else mapGet rest k

/-- Stable insertion of a pool index into a list sorted by descending
bandwidth: the new element goes after every element whose bandwidth is
greater than or equal to its own.  This reproduces the observable contract
of `Array.prototype.sort` with comparator
`(t1, t2) => t2.bandwidth - t1.bandwidth` (a stable descending sort). -/
def insertByBw (pool : List MediaTrack) (i : Nat) : List Nat → List Nat
  | [] => [i]
  | j :: rest =>
      if (trackAt pool j).bandwidth ≤ (trackAt pool i).bandwidth then i :: j :: rest
      else j :: insertByBw pool i rest

/-- Stable sort by descending bandwidth (see `insertByBw`). -/
def sortByBwDesc (pool : List MediaTrack) (l : List Nat) : List Nat :=
  l.foldr (insertByBw pool) []

/-- The whole `Metadata` state that `fix` touches. -/
structure MetadataModel where
  pool : List MediaTrack
  tracks : List (Int × Nat)
  audioTracks : List Nat
  videoTracks : List Nat
  dataTracks : List Nat
  up : Nat → Option Nat
  down : Nat → Option Nat

/-- Loop body of `Metadata.fix`: `tracks.set(id, track)`; when the map size
did not grow (duplicate id) the track is skipped, otherwise its `down` is
cleared, its `up` becomes the current tail of its kind list, the former
tail's `down` is pointed at it, and it is appended to the kind list. -/
def fixStep (pool : List MediaTrack) (acc : MetadataModel) (i : Nat) : MetadataModel :=
  let t := trackAt pool i
  if (mapGet acc.tracks t.id).isSome then
    { acc with tracks := mapSet acc.tracks t.id i }
  else
    let tracks2 := mapSet acc.tracks t.id i
    let medias : List Nat :=
      match t.type with
      | MType.audio => acc.audioTracks
      | MType.video => acc.videoTracks
      | MType.data => acc.dataTracks
    let upIdx := medias.getLast?
    let down1 : Nat → Option Nat := fun j => if j = i then Option.none else acc.down j
    let down2 : Nat → Option Nat :=
      match upIdx with
      | some u => fun j => if j = u then some i else down1 j
      | Option.none => down1
    let up2 : Nat → Option Nat := fun j => if j = i then upIdx else acc.up j
    match t.type with
    | MType.audio =>
        { acc with tracks := tracks2, audioTracks := acc.audioTracks ++ [i]
                   up := up2, down := down2 }
    | MType.video =>
        { acc with tracks := tracks2, videoTracks := acc.videoTracks ++ [i]
                   up := up2, down := down2 }
    | MType.data =>
        { acc with tracks := tracks2, dataTracks := acc.dataTracks ++ [i]
                   up := up2, down := down2 }

/-- Embedding of `Metadata.fix` (src/src/media/Metadata.ts lines 169-201):
collect `videoTracks ++ audioTracks ++ dataTracks ++ tracks.values()`,
stable-sort by descending bandwidth, reset `audioTracks.length` and
`videoTracks.length` to 0 (`dataTracks` is left as is), clear the map, and
run the linking loop. -/
def metadataFix (m : MetadataModel) : MetadataModel :=
  let order := m.videoTracks ++ m.audioTracks ++ m.dataTracks ++ m.tracks.map Prod.snd
  let sorted := sortByBwDesc m.pool order
  let acc0 : MetadataModel :=
    { m with tracks := [], audioTracks := [], videoTracks := [] }
  sorted.foldl (fixStep m.pool) acc0

/-- First-occurrence id deduplication: keeps each pool index whose track id
has not been seen before (spec-side companion used to characterize the
lists rebuilt by `metadataFix`). -/
def dedupFirstById (pool : List MediaTrack) (seenIds : Int → Bool) : List Nat → List Nat
  | [] => []
  | i :: rest =>
      let k := (trackAt pool i).id
      if seenIds k then dedupFirstById pool seenIds rest
      else i :: dedupFirstById pool (fun k2 => k2 = k || seenIds k2) rest

/-- The sorted collection order used by `metadataFix`. -/
def fixOrder (m : MetadataModel) : List Nat :=
  sortByBwDesc m.pool (m.videoTracks ++ m.audioTracks ++ m.dataTracks ++ m.tracks.map Prod.snd)

/-! ## RTSReader (src/src/media/reader/RTSReader.ts)

The framed transport mode (`withSize = false`, the WebSocket transport) is
embedded: each incoming frame either becomes the pending packet header
(`this._header = reader.read(); return 0`), or — when a header is already
pending — is consumed as that packet's payload (`reader.read()` inside
`_readPayload`). -/

/-- Modelled from the spec: `BinaryReader.read7Bit` of the external
`@ceeblue/web-utils` package, which is not part of this repository.  The
spec describes the non-payload fields as LEB128 ("7-bit") unsigned
integers with MSB continuation; reading past the end yields 0. -/
def read7Bit : List Nat → Nat × List Nat
  | [] => (0, [])
  | b :: rest =>
      if b < 128 then (b % 128, rest)
      else
        let r := read7Bit rest
        (b % 128 + 128 * r.1, r.2)

/-- Media sample assembled by `RTSReader._parse`. -/
structure RTSSample where
  time : Nat
  duration : Nat
  isKeyFrame : Bool
  compositionOffset : Nat
  data : List Nat
deriving DecidableEq, Repr

/-- Events emitted by `RTSReader._parse`. -/
inductive RTSEvent
  | initTracks (videoId audioId : Int)
  | metadataEvt (payload : List Nat)
  | dataEvt (trackId : Nat) (time : Nat) (payload : List Nat)
  | audioSample (trackId : Nat) (sample : RTSSample)
  | videoSample (trackId : Nat) (sample : RTSSample)
  | unknownFormat (format : Nat)
deriving DecidableEq, Repr

/-- `RTSReader` mutable state: the per-track next-timestamp map and the
pending packet header. -/
structure RTSState where
  nextTimes : List (Nat × Nat)
  pendingHeader : Option (List Nat)
deriving DecidableEq, Repr

/-- Association-list get for the `Map<trackId, time>` of the reader. -/
def ntGet (m : List (Nat × Nat)) (k : Nat) : Option Nat :=
  match m with
  | [] => Option.none
  | (k0, v0) :: rest => if k0 = k then some v0 else ntGet rest k

/-- Association-list `Map.set` for the next-timestamp map. -/
def ntSet (m : List (Nat × Nat)) (k v : Nat) : List (Nat × Nat) :=
  match m with
  | [] => [(k, v)]
  | (k0, v0) :: rest => if k0 = k then (k, v) :: rest else (k0, v0) :: ntSet rest k v

/-- Process one complete packet: `hdr` is the pending header,
`frame` the current frame (the payload for packet forms that carry one).
Mirrors the body of the `while` loop of `RTSReader._parse`
(src/src/media/reader/RTSReader.ts lines 59-118). -/
def rtsProcessHeader (st : RTSState) (hdr frame : List Nat) : RTSState × List RTSEvent :=
  let r0 := read7Bit hdr
  let type := r0.1 % 4
  let trackIdPlus1 := r0.1 / 4
  let h1 := r0.2
  if trackIdPlus1 = 0 then
    if type = 3 then
      -- INIT TRACKS: clear the next-timestamp map, read videoTrackId+1 and
      -- audioTrackId+1; the loop then stores the current frame as the next
      -- pending header.
      let rv := read7Bit h1
      let ra := read7Bit rv.2
      ({ nextTimes := [], pendingHeader := some frame },
       [RTSEvent.initTracks ((rv.1 : Int) - 1) ((ra.1 : Int) - 1)])
    else if type = 0 then
      -- METADATA: the payload is the whole frame.
      ({ st with pendingHeader := Option.none }, [RTSEvent.metadataEvt frame])
    else
      -- Unknown format at trackId == -1: unrecoverable, the header is kept.
      ({ st with pendingHeader := some hdr }, [RTSEvent.unknownFormat type])
  else
    let trackId := trackIdPlus1 - 1
    if type = 0 then
      -- DATA packet: time then payload (the whole frame).
      let rt := read7Bit h1
      ({ st with pendingHeader := Option.none }, [RTSEvent.dataEvt trackId rt.1 frame])
    else
      -- MEDIA packet: the absolute time field is read from the wire only
      -- when the reader holds no stored next timestamp for the track.
      let tr : Nat × List Nat :=
        match ntGet st.nextTimes trackId with
        | some t => (t, h1)
        | Option.none => read7Bit h1
      let time := tr.1
      let rvalue := read7Bit tr.2
      let duration := rvalue.1 / 4
      let hasCO := rvalue.1 / 2 % 2 = 1
      let rco := if hasCO then read7Bit rvalue.2 else (0, rvalue.2)
      let isKey := rvalue.1 % 2 = 1
      let sample : RTSSample :=
        { time := time, duration := duration, isKeyFrame := isKey
          compositionOffset := rco.1, data := frame }
      ({ nextTimes := ntSet st.nextTimes trackId (time + duration)
         pendingHeader := Option.none },
       [if type = 1 then RTSEvent.audioSample trackId sample
        else RTSEvent.videoSample trackId sample])

/-- One `read(frame)` call of the reader in framed mode: an empty frame is
ignored (`while (reader.available())`); with no pending header the frame
becomes the pending header; otherwise the pending header is processed with
this frame as payload. -/
def rtsStep (st : RTSState) (frame : List Nat) : RTSState × List RTSEvent :=
  if frame = [] then (st, [])
  else
    match st.pendingHeader with
    | Option.none => ({ st with pendingHeader := some frame }, [])
    | some hdr => rtsProcessHeader st hdr frame

/-- Feed a sequence of frames, collecting all emitted events. -/
def rtsRun (st : RTSState) (frames : List (List Nat)) : RTSState × List RTSEvent :=
  frames.foldl
    (fun acc f =>
      let r := rtsStep acc.1 f
      (r.1, acc.2 ++ r.2))
    (st, [])

/-! ## CMAFWriter (src/src/media/writer/CMAFWriter.ts)

`write` is embedded byte-for-byte for the unprotected path
(`contentProtection == undefined`); the protection boxes (`saiz`, `saio`,
`senc`) only append after the fixed `moof`/`mfhd` prefix and do not move
the `mfhd` sequence field. -/

/-- Big-endian 32-bit write (`DataView.setUint32` truncates to 32 bits). -/
def be32 (v : Nat) : List Nat :=
  [v / 2 ^ 24 % 256, v / 2 ^ 16 % 256, v / 2 ^ 8 % 256, v % 256]

/-- Big-endian 64-bit write. -/
def be64 (v : Nat) : List Nat :=
  [v / 2 ^ 56 % 256, v / 2 ^ 48 % 256, v / 2 ^ 40 % 256, v / 2 ^ 32 % 256,
   v / 2 ^ 24 % 256, v / 2 ^ 16 % 256, v / 2 ^ 8 % 256, v % 256]

/-- Codecs checked by `CMAFWriter.init`. -/
inductive Codec
  | aac
  | mp3
  | h264
  | other
deriving DecidableEq, Repr

/-- `CMAFWriter` state: `_sequence` (starts at 0 in the constructor) and
`_isVideo`. -/
structure CMAFState where
  sequence : Nat
  isVideo : Bool
deriving DecidableEq, Repr

/-- The fresh state built by the `CMAFWriter` constructor
(src/src/media/writer/CMAFWriter.ts lines 35-39). -/
def cmafConstructor : CMAFState :=
  { sequence := 0, isVideo := false }

/-- State effect of `CMAFWriter.init` (src/src/media/writer/CMAFWriter.ts
lines 47-66): the codec check and the `_isVideo` assignment.  `_sequence`
is not referenced anywhere in `init`.  The emitted `ftyp`/`moov` bytes are
not needed by the properties below and are not modelled. -/
def cmafInit (st : CMAFState) (trackType : MType) (codec : Codec) :
    CMAFState × Option String :=
  match trackType with
  | MType.audio =>
      if codec ≠ Codec.aac ∧ codec ≠ Codec.mp3 then (st, some "Unsupported codec")
      else ({ st with isVideo := false }, Option.none)
  | MType.video =>
      if codec ≠ Codec.h264 then (st, some "Unsupported codec")
      else ({ st with isVideo := true }, Option.none)
  | MType.data => (st, some "Unsupported track type")

/-- Sample fields consumed by `CMAFWriter.write`. -/
structure CMAFSample where
  time : Nat
  duration : Nat
  isKeyFrame : Bool
  compositionOffset : Int
  data : List Nat
deriving DecidableEq, Repr

/-- Embedding of `CMAFWriter.write` without content protection
(src/src/media/writer/CMAFWriter.ts lines 486-603): emits
`moof(mfhd, traf(tfhd, tfdt, trun))` followed by `mdat` and the raw sample
data; the `mfhd` field is `++this._sequence` truncated to 32 bits by
`DataView.setUint32`. -/
def cmafWrite (st : CMAFState) (s : CMAFSample) : CMAFState × List Nat :=
  let sizeTrun := 36
  let sizeTraf := 8 + 20 + 20 + sizeTrun
  let sizeMoof := 8 + 16 + sizeTraf
  let seq := st.sequence + 1
  let bytes :=
    be32 sizeMoof ++ [0x6d, 0x6f, 0x6f, 0x66] ++
    ([0x00, 0x00, 0x00, 0x10, 0x6d, 0x66, 0x68, 0x64, 0x00, 0x00, 0x00, 0x00] ++
      be32 seq) ++
    be32 sizeTraf ++ [0x74, 0x72, 0x61, 0x66] ++
    ([0x00, 0x00, 0x00, 0x14, 0x74, 0x66, 0x68, 0x64, 0x00, 0x02, 0x00, 0x02] ++
      be32 1 ++ be32 1) ++
    ([0x00, 0x00, 0x00, 0x14, 0x74, 0x66, 0x64, 0x74, 0x01, 0x00, 0x00, 0x00] ++
      be64 s.time) ++
    (be32 sizeTrun ++ [0x74, 0x72, 0x75, 0x6e] ++ be32 0x00000f01 ++ be32 1 ++
      be32 (sizeMoof + 8) ++ be32 s.duration ++ be32 s.data.length ++
      be32 (if !st.isVideo || s.isKeyFrame then 0x02000000 else 0x01010000) ++
      be32 (s.compositionOffset.emod (2 ^ 32)).toNat) ++
    (be32 (8 + s.data.length) ++ [0x6d, 0x64, 0x61, 0x74]) ++
    s.data
  ({ st with sequence := seq }, bytes)

/-- The `mfhd` sequence-number field of a fragment emitted by `write`:
bytes 20..23, big-endian. -/
def mfhdSeqOf (bytes : List Nat) : Nat :=
  bytes.getD 20 0 * 2 ^ 24 + bytes.getD 21 0 * 2 ^ 16 +
    bytes.getD 22 0 * 2 ^ 8 + bytes.getD 23 0

/-- Run several `write` calls, collecting the emitted `mfhd` sequence
fields in order. -/
def cmafWriteRun (st : CMAFState) (samples : List CMAFSample) : CMAFState × List Nat :=
  samples.foldl
    (fun acc s =>
      let r := cmafWrite acc.1 s
      (r.1, acc.2 ++ [mfhdSeqOf r.2]))
    (st, [])

/-! ## HTTPAdaptiveSource._play: sequence skip and bandwidth emulation
(src/src/sources/HTTPAdaptiveSource.ts) -/

/-- `Math.ceil(a / b)` on integers, for `b > 0`. -/
def ceilDiv (a b : Int) : Int :=
  -((-a).fdiv b)

/-- Inner loop of the skip-framing step
(src/src/sources/HTTPAdaptiveSource.ts lines 229-264) after the first
candidate has been computed and HEAD-requested without success.
`obs k` is the value of `metadata.liveTime - currentTime` observed at
iteration `k`; `headOk c` tells whether the HEAD request for sequence `c`
returns 2xx; `prev` is the previous candidate (`newSequence`).  Returns
the final sequence and the list of HEAD-requested candidates. -/
def skipLoopAux (msd : Int) (seq : Nat) (obs : Nat → Int) (headOk : Nat → Bool)
    (k : Nat) (prev : Nat) : Nat × List Nat :=
  if obs k ≤ 0 then (seq, [])
  else
    let cand := min (seq + ((obs k).fdiv msd).toNat) (prev - 1)
    if h : cand ≤ seq then (seq, [])
    else if headOk cand then (cand, [cand])
    else
      let r := skipLoopAux msd seq obs headOk (k + 1) cand
      (r.1, cand :: r.2)
termination_by prev
decreasing_by
  simp only [not_le] at h
  have h1 : cand ≤ prev - 1 := min_le_right _ _
  omega

/-- Embedding of the skip-framing step of `HTTPAdaptiveSource._play`
(src/src/sources/HTTPAdaptiveSource.ts lines 219-280), reached when the
mode is unreliable, the buffer state is LOW and playback is buffering.
When `_maxSequenceDuration` is unknown (`none`) the step refuses to skip
and performs no request.  The initial `newSequence` is `Infinity`, so the
first candidate is `sequence + floor(delay / maxSequenceDuration)`
un-clamped.  The per-failure `fixLiveTime` accumulator only adjusts the
metadata anchor after the loop and does not affect the requests. -/
def skipFraming (msdOpt : Option Int) (seq : Nat) (obs : Nat → Int)
    (headOk : Nat → Bool) : Nat × List Nat :=
  match msdOpt with
  | Option.none => (seq, [])
  | some msd =>
      if obs 0 ≤ 0 then (seq, [])
      else
        let cand := seq + ((obs 0).fdiv msd).toNat
        if cand ≤ seq then (seq, [])
        else if headOk cand then (cand, [cand])
        else
          let r := skipLoopAux msd seq obs headOk 1 cand
          (r.1, cand :: r.2)

/-- HTTP method of a request issued by `_downloadSequence`:
`length === 0` gives a HEAD, anything else a GET. -/
inductive HttpMethod
  | get
  | head
deriving DecidableEq, Repr

/-- A bandwidth-emulation request: the method, the track and sequence
fetched, and the `Range: bytes=0-(len-1)` header content when one is set
(`range = some len`; the header is set only when `length` is truthy). -/
structure UpRequest where
  method : HttpMethod
  trackId : Int
  sequence : Nat
  range : Option Int
deriving DecidableEq, Repr

/-- The inputs of the up-probe decision
(src/src/sources/HTTPAdaptiveSource.ts lines 292-314). -/
structure UpProbeEnv where
  videoTrackSelected : Bool
  prevVideoTime : Option Int
  retryOk : Bool
  upExists : Bool
  upOverResolution : Bool
  upTrackId : Int
  upBandwidth : Int
  curBandwidth : Int
  videoTime : Int
  prevVideoSequence : Nat
deriving Repr

/-- Embedding of the bandwidth-emulation ("up") probe decision: under
`videoTrack && prevVideoTime != null && adaptiveRetry.try() && videoTrack.up
&& !overScreenSize(up.resolution)`, compute
`extraByteRateRequired = up.bandwidth - videoTrack.bandwidth`; when it is
`>= 0`, request the previous sequence on `up.id` with
`bytes = Math.ceil(extraByteRateRequired * (videoTime - prevVideoTime) / 1000)`,
issued by `_downloadSequence` as a HEAD when `bytes === 0` and as a GET with
a `Range: bytes=0-(bytes-1)` header otherwise
(src/src/sources/HTTPAdaptiveSource.ts lines 413-432). -/
def upProbe (e : UpProbeEnv) : Option UpRequest :=
  match e.prevVideoTime with
  | Option.none => Option.none
  | some pvt =>
      if e.videoTrackSelected ∧ e.retryOk ∧ e.upExists ∧ ¬e.upOverResolution then
        let extraByteRateRequired := e.upBandwidth - e.curBandwidth
        if 0 ≤ extraByteRateRequired then
          let bytes := ceilDiv (extraByteRateRequired * (e.videoTime - pvt)) 1000
          some { method := if bytes = 0 then HttpMethod.head else HttpMethod.get
                 trackId := e.upTrackId
                 sequence := e.prevVideoSequence
                 range := if bytes ≠ 0 then some bytes else Option.none }
        else Option.none
      else Option.none

/-! ## Statement-level helpers -/

/-- The media-sample time carried by an `RTSEvent`, when it is one. -/
def eventSampleTime : RTSEvent → Option Nat
  | RTSEvent.audioSample _ s => some s.time
  | RTSEvent.videoSample _ s => some s.time
  | _ => Option.none

/-- The per-kind list of a metadata state (the `medias` alias picked by the
loop body of `Metadata.fix`). -/
def kindList (acc : MetadataModel) : MType → List Nat
  | MType.audio => acc.audioTracks
  | MType.video => acc.videoTracks
  | MType.data => acc.dataTracks

/-- The last pool index in `l` whose track id is `k` (spec-side companion:
what a JS `Map` rebuilt by repeated `set` holds under key `k`). -/
def lastIdx (pool : List MediaTrack) (k : Int) : List Nat → Option Nat
  | [] => Option.none
  | i :: rest =>
      (lastIdx pool k rest).or (if (trackAt pool i).id = k then some i else Option.none)

/-- A per-kind list is well linked for the pointer maps `up`/`down`: the
head has no `up`, the last element has no `down`, and consecutive elements
point at each other. -/
def wellLinked (up down : Nat → Option Nat) (l : List Nat) : Prop :=
  (∀ a, l.head? = some a → up a = Option.none) ∧
  (∀ a, l.getLast? = some a → down a = Option.none) ∧
  l.Chain' (fun a b => down a = some b ∧ up b = some a)

/-- The per-kind symmetry-and-order property claimed for the `up`/`down`
chains: each neighbour, when it exists, points back, and bandwidth does not
increase downwards. -/
def chainProp (pool : List MediaTrack) (up down : Nat → Option Nat) (l : List Nat) : Prop :=
  ∀ i ∈ l,
    (∀ u, up i = some u →
      down u = some i ∧ (trackAt pool i).bandwidth ≤ (trackAt pool u).bandwidth) ∧
    (∀ d, down i = some d →
      up d = some i ∧ (trackAt pool d).bandwidth ≤ (trackAt pool i).bandwidth)

/-! ## Shared lemmas -/

/-- Characterization of the audio branch of `fixTimestamp` when a prior
current time exists: the sample is repaired exactly when the delta is
nonzero and below `TIMESTAMP_HOLE_TOLERANCE`. -/
theorem fixTimestamp_audio_sample (ct t : Int) (dOpt : Option Int) (hct : 0 ≤ ct) :
    (fixTimestamp MType.audio ct ⟨t, dOpt⟩).sample =
      if t - ct ≠ 0 ∧ t - ct < 7 then
        ⟨ct, dOpt.map fun d => max 1 (d + (t - ct))⟩
      else ⟨t, dOpt⟩ := by
  simp only [fixTimestamp, TIMESTAMP_HOLE_TOLERANCE, if_pos hct]
  have hda : (MType.audio = MType.data) = False := by simp
  simp only [hda, if_false, reduceCtorEq, ne_eq, not_false_eq_true, not_true_eq_false,
    false_or, if_neg]
  by_cases h : t - ct ≠ 0 ∧ t - ct < 7
  · rw [if_pos h, if_pos h]
    cases dOpt with
    | none => simp
    | some d =>
        have : max 1 (d + (t - ct)) ≠ 0 := by positivity
        simp [this]
  · rw [if_neg h, if_neg h]

/-- `fixTimestamp` never returns a time below the prior current time, for
samples with nonnegative time and (when present) nonnegative duration. -/
theorem fixTimestamp_next_ge (type : MType) (ct : Int) (s : TimedSample)
    (ht : 0 ≤ s.time) (hd : 0 ≤ s.duration.getD 0) :
    ct ≤ (fixTimestamp type ct s).next := by
  obtain ⟨t, dOpt⟩ := s
  simp only [Option.getD] at hd ht
  cases dOpt with
  | none =>
      cases type <;>
        simp only [fixTimestamp, TIMESTAMP_HOLE_TOLERANCE, Option.getD] <;>
        split_ifs <;> simp_all <;> omega
  | some d =>
      have hmax : (1 : Int) ≤ max 1 (d + (t - (if 0 ≤ ct then ct else ct))) :=
        le_max_left _ _
      cases type <;>
        simp only [fixTimestamp, TIMESTAMP_HOLE_TOLERANCE, Option.getD] <;>
        split_ifs <;>
        simp_all [le_max_iff] <;>
        omega

/-- `readVideoStep` never moves `_videoTime` backwards, for any incoming
duration (negative extendable durations included). -/
theorem readVideoStep_videoTime_ge (audioTime dataTime videoTime : Int)
    (v : TimedSample) (hv : 0 ≤ v.time) :
    videoTime ≤ (readVideoStep audioTime dataTime videoTime v).videoTime := by
  obtain ⟨t, dOpt⟩ := v
  simp only at hv
  cases dOpt with
  | none =>
      have hfix := fixTimestamp_next_ge MType.video videoTime ⟨t, Option.none⟩ hv (by simp)
      simpa [readVideoStep] using hfix
  | some d =>
      by_cases hneg : d < 0
      · have hcond : decide (d < 0) = true := by simpa using hneg
        have hfix := fixTimestamp_next_ge MType.video videoTime ⟨t, some (-d)⟩ hv
          (by simp; omega)
        simp only [readVideoStep, hcond, Option.map_some', if_true]
        split_ifs <;> dsimp only <;> omega
      · have hcond : decide (d < 0) = false := by simpa using hneg
        have hfix := fixTimestamp_next_ge MType.video videoTime ⟨t, some d⟩ hv
          (by simp; omega)
        simp only [readVideoStep, hcond, Option.map_some', Bool.false_eq_true, if_false,
          false_and]
        exact hfix

/-! ## Claim theorems -/

/-- C1, counterexample: an audio sample arriving 8 ms after the per-kind
current time (`currentTime = 1000`, `sample.time = 1008`,
`sample.duration = 20`) is left unchanged by `fixTimestamp` — it is NOT
repaired to `time = 1000` with `duration = max(1, 20 + 8)` as the claim
states for an 8 ms gap. -/
theorem C1_audio_8ms_counterexample :
    (fixTimestamp MType.audio 1000 ⟨1008, some 20⟩).sample = ⟨1008, some 20⟩ ∧
      (fixTimestamp MType.audio 1000 ⟨1008, some 20⟩).sample.time ≠ 1000 := by
  constructor <;> decide

/-- C1 (amended): for an audio sample with a prior per-kind current time,
a forward gap of exactly 7 ms is skipped (the sample is unchanged) and so
is a gap of 8 ms — every forward gap of at least
`TIMESTAMP_HOLE_TOLERANCE = 7` ms is skipped; a forward gap strictly below
7 ms is repaired: `sample.time` is set back to `currentTime` and, when
`sample.duration` is set, the duration becomes
`max(1, duration + delta)`. -/
theorem C1_audio_hole_tolerance (ct t : Int) (dOpt : Option Int) (hct : 0 ≤ ct) :
    (7 ≤ t - ct → (fixTimestamp MType.audio ct ⟨t, dOpt⟩).sample = ⟨t, dOpt⟩) ∧
    (0 < t - ct → t - ct < 7 →
      (fixTimestamp MType.audio ct ⟨t, dOpt⟩).sample =
        ⟨ct, dOpt.map fun d => max 1 (d + (t - ct))⟩) := by
  rw [fixTimestamp_audio_sample ct t dOpt hct]
  constructor
  · intro h
    rw [if_neg]
    omega
  · intro h1 h2
    rw [if_pos]
    omega

/-- C1, witness: at `currentTime = 1000`, a gap of 8 ms (`time = 1008`) is
skipped while a gap of 3 ms (`time = 1003`) is repaired to `time = 1000`,
`duration = 23`. -/
theorem C1_audio_hole_tolerance_witness :
    (fixTimestamp MType.audio 1000 ⟨1008, some 20⟩).sample = ⟨1008, some 20⟩ ∧
      (fixTimestamp MType.audio 1000 ⟨1003, some 20⟩).sample = ⟨1000, some 23⟩ :=
  ⟨(C1_audio_hole_tolerance 1000 1008 (some 20) (by decide)).1 (by decide),
   by
    have h := (C1_audio_hole_tolerance 1000 1003 (some 20) (by decide)).2
      (by decide) (by decide)
    simpa using h⟩

/-- C4: the per-kind current time returned by `fixTimestamp` never
decreases (for wire samples, whose time is nonnegative and whose duration,
when present, is nonnegative for audio/data), and `readVideoStep` — which
normalizes a negative extendable duration to positive before repair and can
further stretch it — never moves `_videoTime` backwards either. -/
theorem C4_next_time_monotone (type : MType) (ct : Int) (s : TimedSample)
    (audioTime dataTime videoTime : Int) (v : TimedSample)
    (hs : 0 ≤ s.time) (hd : 0 ≤ s.duration.getD 0) (hv : 0 ≤ v.time) :
    ct ≤ (fixTimestamp type ct s).next ∧
      videoTime ≤ (readVideoStep audioTime dataTime videoTime v).videoTime :=
  ⟨fixTimestamp_next_ge type ct s hs hd,
   readVideoStep_videoTime_ge audioTime dataTime videoTime v hv⟩

/-- C4, witness: an audio sample at `time = 980` with current time 1000 is
repaired and the returned time does not decrease; a video sample with
negative extendable duration `-40` behind the audio clock keeps
`_videoTime` nondecreasing as well. -/
theorem C4_next_time_monotone_witness :
    1000 ≤ (fixTimestamp MType.audio 1000 ⟨980, some 20⟩).next ∧
      500 ≤ (readVideoStep 700 0 500 ⟨480, some (-40)⟩).videoTime :=
  C4_next_time_monotone MType.audio 1000 ⟨980, some 20⟩ 700 0 500 ⟨480, some (-40)⟩
    (by decide) (by decide) (by decide)

/-- C2: on a time update once past the first buffering
(`state ≠ NONE`), the re-evaluated buffer state is HIGH when
`bufferAmount > bufferLimitHigh`, LOW when `bufferAmount ≤ bufferLimitLow`,
and otherwise OK subject to hysteresis: from LOW it becomes OK only when
`bufferAmount > bufferLimitMiddle`, from HIGH only when
`bufferAmount < bufferLimitMiddle`, the state being unchanged in the
remaining cases. -/
theorem C2_bufferState_transition (low mid high amount : Int) (st : BufferState)
    (hlh : low ≤ high) (hst : st ≠ BufferState.none) :
    (high < amount → nextBufferState low mid high st amount = BufferState.high) ∧
    (amount ≤ low → nextBufferState low mid high st amount = BufferState.low) ∧
    (low < amount → amount ≤ high →
      (st = BufferState.low →
        nextBufferState low mid high st amount =
          if mid < amount then BufferState.ok else BufferState.low) ∧
      (st = BufferState.high →
        nextBufferState low mid high st amount =
          if amount < mid then BufferState.ok else BufferState.high) ∧
      (st = BufferState.ok →
        nextBufferState low mid high st amount = BufferState.ok)) := by
  refine ⟨fun h => ?_, fun h => ?_, fun h1 h2 => ⟨fun he => ?_, fun he => ?_, fun he => ?_⟩⟩ <;>
    subst_eqs <;>
    simp only [nextBufferState] <;>
    split_ifs <;>
    simp_all <;>
    omega

/-- C2, witness: with thresholds `low = 150 < mid = 350 < high = 550`, a
LOW state with amount 340 stays LOW, and with amount 360 becomes OK. -/
theorem C2_bufferState_transition_witness :
    nextBufferState 150 350 550 BufferState.low 340 =
        (if (350 : Int) < 340 then BufferState.ok else BufferState.low) ∧
      nextBufferState 150 350 550 BufferState.low 360 =
        (if (350 : Int) < 360 then BufferState.ok else BufferState.low) :=
  ⟨(((C2_bufferState_transition 150 350 550 340 BufferState.low (by decide)
      (by decide)).2.2 (by decide) (by decide)).1 rfl),
   (((C2_bufferState_transition 150 350 550 360 BufferState.low (by decide)
      (by decide)).2.2 (by decide) (by decide)).1 rfl)⟩

/-- C10: `Source.close` is idempotent at the public interface — on an
already-closed source any further `close(error?)` returns immediately with
the state unchanged and no `onClose`, so over any sequence of `close`
calls the `onClose` event fires at most once. -/
theorem C10_close_idempotent (st : SourceCloseState) (e : Option SrcError)
    (errors : List (Option SrcError)) (hclosed : st.closed = true) :
    sourceClose st e = (st, Option.none) ∧
      (sourceCloseRuns st errors).2 = 0 ∧
      ∀ s0 : SourceCloseState, (sourceCloseRuns s0 errors).2 ≤ 1 := by
  have hstep : ∀ s0 : SourceCloseState, s0.closed = true →
      ∀ e0, sourceClose s0 e0 = (s0, Option.none) := by
    intro s0 h0 e0
    simp [sourceClose, h0]
  have hclosed_run : ∀ (errs : List (Option SrcError)) (s0 : SourceCloseState)
      (n : Nat), s0.closed = true →
      errs.foldl
        (fun acc e0 =>
          let r := sourceClose acc.1 e0
          (r.1, acc.2 + (if r.2.isSome then 1 else 0)))
        (s0, n) = (s0, n) := by
    intro errs
    induction errs with
    | nil => intro s0 n h0; rfl
    | cons e0 rest ih =>
        intro s0 n h0
        simp only [List.foldl_cons, hstep s0 h0 e0, Option.isSome_none, Bool.false_eq_true,
          if_false, Nat.add_zero]
        exact ih s0 n h0
  refine ⟨hstep st hclosed e, ?_, ?_⟩
  · simpa [sourceCloseRuns] using congrArg Prod.snd (hclosed_run errors st 0 hclosed)
  · intro s0
    rcases hc : s0.closed with hfalse | htrue
    · -- open source: the first close (if any) fires once, then everything
      -- is a no-op
      cases errors with
      | nil => simp [sourceCloseRuns]
      | cons e0 rest =>
          have h1 : sourceClose s0 e0 =
              ({ closed := true, selectedAudio := Option.none,
                 selectedVideo := Option.none, trackIds := [],
                 firstSamples := Option.none, lastStalls := 0,
                 trackRequestPending := false },
               some (e0.map morphCloseError)) := by
            simp [sourceClose, hc]
          simp only [sourceCloseRuns, List.foldl_cons, h1, Option.isSome_some, if_true]
          rw [hclosed_run rest _ 1 rfl]
    · have := hclosed_run errors s0 0 hc
      simp only [sourceCloseRuns, this]
      exact Nat.zero_le 1

/-- C10, witness: on a concrete already-closed source state, `close` with a
request error is a no-op and two further closes fire no event; from the
same state any call sequence fires at most once. -/
theorem C10_close_idempotent_witness :
    sourceClose ⟨true, Option.none, Option.none, [], Option.none, 2, false⟩
        (some (SrcError.request "404 not found")) =
      (⟨true, Option.none, Option.none, [], Option.none, 2, false⟩, Option.none) ∧
      (sourceCloseRuns ⟨true, Option.none, Option.none, [], Option.none, 2, false⟩
        [some SrcError.resourceUnavailable, Option.none]).2 = 0 ∧
      ∀ s0 : SourceCloseState,
        (sourceCloseRuns s0 [some SrcError.resourceUnavailable, Option.none]).2 ≤ 1 :=
  C10_close_idempotent ⟨true, Option.none, Option.none, [], Option.none, 2, false⟩
    (some (SrcError.request "404 not found"))
    [some SrcError.resourceUnavailable, Option.none] rfl

/-- C3: the sequence-skip step refuses to run when `maxSequenceDuration`
is unknown (no request is issued and the sequence is unchanged); when it
runs, the candidate is `n + floor((liveTime - currentTime) / msd)`
(clamped by the previous candidate minus one on retries) and a 2xx HEAD
response advances the next downloaded sequence to the candidate; in
particular with `msd = 1000` and a constant 2500 ms delay, a successful
HEAD on `n + 2` makes `n + 2` the next fetched sequence and `n`, `n + 1`
are never requested. -/
theorem C3_sequence_skip (seq : Nat) (obs : Nat → Int) (headOk : Nat → Bool)
    (msd : Int) (h2xx : headOk (seq + 2) = true) :
    (skipFraming Option.none seq obs headOk = (seq, [])) ∧
    (0 < obs 0 → seq < seq + ((obs 0).fdiv msd).toNat →
      headOk (seq + ((obs 0).fdiv msd).toNat) = true →
      skipFraming (some msd) seq obs headOk =
        (seq + ((obs 0).fdiv msd).toNat, [seq + ((obs 0).fdiv msd).toNat])) ∧
    (skipFraming (some 1000) seq (fun _ => 2500) headOk = (seq + 2, [seq + 2]) ∧
      seq ∉ [seq + 2] ∧ seq + 1 ∉ [seq + 2]) := by
  refine ⟨rfl, fun h0 hcand hok => ?_, ?_, by simp, by simp⟩
  · simp only [skipFraming]
    rw [if_neg (by omega), if_neg (by omega), if_pos hok]
  · have hdiv : (((2500 : Int)).fdiv 1000).toNat = 2 := by decide
    simp only [skipFraming, hdiv]
    rw [if_neg (by omega), if_neg (by omega), if_pos h2xx]

/-- C3, witness: with `n = 100`, `msd = 1000`, delay 2500 ms and a HEAD
oracle accepting only sequence 102, the step skips to 102, requesting
only 102. -/
theorem C3_sequence_skip_witness :
    (skipFraming Option.none 100 (fun _ => 2500) (fun s => s = 102) = (100, [])) ∧
    (0 < (2500 : Int) → 100 < 100 + (((2500 : Int)).fdiv 1000).toNat →
      (fun s => decide (s = 102)) (100 + (((2500 : Int)).fdiv 1000).toNat) = true →
      skipFraming (some 1000) 100 (fun _ => 2500) (fun s => s = 102) =
        (100 + (((2500 : Int)).fdiv 1000).toNat,
          [100 + (((2500 : Int)).fdiv 1000).toNat])) ∧
    (skipFraming (some 1000) 100 (fun _ => 2500) (fun s => s = 102) = (102, [102]) ∧
      100 ∉ [102] ∧ 101 ∉ [102]) :=
  C3_sequence_skip 100 (fun _ => 2500) (fun s => s = 102) 1000 (by decide)

/-- C9, counterexample: with every enabling condition satisfied and
`extraByteRate = up.bandwidth - current.bandwidth = 0`, the code still
issues a request on the up track (a HEAD, since the computed length is 0),
contradicting "never issued when extraByteRate ≤ 0". -/
theorem C9_up_probe_zero_counterexample :
    upProbe ⟨true, some 4000, true, true, false, 3, 100000, 100000, 5000, 41⟩ =
        some ⟨HttpMethod.head, 3, 41, Option.none⟩ ∧
      ((100000 : Int) - 100000 ≤ 0) := by
  constructor <;> decide

/-- C9 (amended): when the enabling conditions hold (`videoTrack.up`
exists, not over-resolution, `adaptiveRetry.try()` succeeded,
`prevVideoTime` known), the probe is never issued when
`extraByteRate < 0`; with `extraByteRate > 0` and a positive computed
length `len = ceil(extraByteRate * (videoTime - prevVideoTime) / 1000)` it
is a GET on `up.id` for the previous sequence with a
`Range: bytes=0-(len-1)` header; with `extraByteRate = 0` it is still
issued, as a HEAD without a Range header. -/
theorem C9_up_probe_range (e : UpProbeEnv) (pvt : Int)
    (hpv : e.prevVideoTime = some pvt)
    (hcond : e.videoTrackSelected ∧ e.retryOk ∧ e.upExists ∧ ¬e.upOverResolution) :
    (e.upBandwidth - e.curBandwidth < 0 → upProbe e = Option.none) ∧
    (0 < e.upBandwidth - e.curBandwidth →
      0 < ceilDiv ((e.upBandwidth - e.curBandwidth) * (e.videoTime - pvt)) 1000 →
      upProbe e = some
        { method := HttpMethod.get, trackId := e.upTrackId
          sequence := e.prevVideoSequence
          range := some (ceilDiv ((e.upBandwidth - e.curBandwidth) * (e.videoTime - pvt)) 1000) }) ∧
    (e.upBandwidth - e.curBandwidth = 0 →
      upProbe e = some
        { method := HttpMethod.head, trackId := e.upTrackId
          sequence := e.prevVideoSequence, range := Option.none }) := by
  refine ⟨fun hneg => ?_, fun hpos hlen => ?_, fun hzero => ?_⟩
  · simp only [upProbe, hpv]
    rw [if_pos hcond, if_neg (by omega)]
  · simp only [upProbe, hpv]
    rw [if_pos hcond, if_pos (by omega), if_neg (by omega), if_pos (by omega)]
  · have hle : ceilDiv ((e.upBandwidth - e.curBandwidth) * (e.videoTime - pvt)) 1000 = 0 := by
      rw [hzero, zero_mul]
      decide
    simp only [upProbe, hpv]
    rw [if_pos hcond, if_pos (by omega), if_pos hle, if_neg (by simp [hle])]

/-- C9, witness: concrete probes — `extra = -1000` issues nothing,
`extra = 50000` over a 1000 ms gap issues a ranged GET of 50000 bytes,
`extra = 0` issues a bare HEAD. -/
theorem C9_up_probe_range_witness :
    (((50000 : Int) - 100000 < 0) →
      upProbe ⟨true, some 4000, true, true, false, 3, 50000, 100000, 5000, 41⟩ =
        Option.none) ∧
    ((0 : Int) < 100000 - 50000 →
      0 < ceilDiv (((100000 : Int) - 50000) * (5000 - 4000)) 1000 →
      upProbe ⟨true, some 4000, true, true, false, 3, 100000, 50000, 5000, 41⟩ =
        some { method := HttpMethod.get, trackId := 3, sequence := 41
               range := some (ceilDiv (((100000 : Int) - 50000) * (5000 - 4000)) 1000) }) ∧
    (((100000 : Int) - 100000 = 0) →
      upProbe ⟨true, some 4000, true, true, false, 3, 100000, 100000, 5000, 41⟩ =
        some { method := HttpMethod.head, trackId := 3, sequence := 41
               range := Option.none }) := by
  refine ⟨?_, ?_, ?_⟩
  · exact fun h =>
      (C9_up_probe_range ⟨true, some 4000, true, true, false, 3, 50000, 100000, 5000, 41⟩
        4000 rfl (by decide)).1 h
  · exact fun h1 h2 =>
      (C9_up_probe_range ⟨true, some 4000, true, true, false, 3, 100000, 50000, 5000, 41⟩
        4000 rfl (by decide)).2.1 h1 h2
  · exact fun h =>
      (C9_up_probe_range ⟨true, some 4000, true, true, false, 3, 100000, 100000, 5000, 41⟩
        4000 rfl (by decide)).2.2 h

/-- The `mfhd` sequence field of a fragment written from state `st` is
`(st.sequence + 1)` truncated to 32 bits. -/
theorem mfhdSeqOf_cmafWrite (st : CMAFState) (s : CMAFSample) :
    mfhdSeqOf (cmafWrite st s).2 = (st.sequence + 1) % 2 ^ 32 := by
  simp only [cmafWrite, mfhdSeqOf, be32, be64, List.cons_append, List.nil_append,
    List.getD_cons_succ, List.getD_cons_zero]
  omega

/-- Characterization of a run of `write` calls: the counter advances by
one per call and the emitted fields are consecutive. -/
theorem cmafWriteRun_eq (samples : List CMAFSample) (st : CMAFState) :
    cmafWriteRun st samples =
      ({ st with sequence := st.sequence + samples.length },
       (List.range samples.length).map fun k => (st.sequence + 1 + k) % 2 ^ 32) := by
  have haux : ∀ (ss : List CMAFSample) (q : CMAFState) (l : List Nat),
      ss.foldl
        (fun acc s =>
          let r := cmafWrite acc.1 s
          (r.1, acc.2 ++ [mfhdSeqOf r.2]))
        (q, l) =
      ({ q with sequence := q.sequence + ss.length },
       l ++ (List.range ss.length).map fun k => (q.sequence + 1 + k) % 2 ^ 32) := by
    intro ss
    induction ss with
    | nil => intro q l; simp
    | cons s rest ih =>
        intro q l
        simp only [List.foldl_cons]
        have hw1 : (cmafWrite q s).1 = { q with sequence := q.sequence + 1 } := rfl
        rw [hw1, mfhdSeqOf_cmafWrite, ih]
        simp only [List.length_cons]
        rw [List.range_succ_eq_map]
        simp only [List.map_cons, List.map_map, List.append_assoc,
          List.singleton_append, Nat.add_zero, Prod.mk.injEq, CMAFState.mk.injEq]
        refine ⟨⟨by omega, trivial⟩, ?_⟩
        refine congrArg _ (congrArg _ ?_)
        refine List.map_congr_left fun a ha => ?_
        simp only [Function.comp_apply]
        congr 1
        omega
  simpa [cmafWriteRun] using haux samples st []

/-- C8, counterexample: a second `init()` on the same `CMAFWriter` does
not reset `_sequence` — the first fragment written after the re-init
carries `mfhd` sequence number 2, not 1 as the claim states for "each
init()". -/
theorem C8_reinit_counterexample :
    mfhdSeqOf
        (cmafWrite
          ((cmafInit
            (cmafWrite ((cmafInit cmafConstructor MType.audio Codec.aac).1)
              ⟨0, 20, true, 0, [171]⟩).1
            MType.audio Codec.aac).1)
          ⟨20, 20, true, 0, [205]⟩).2 = 2 ∧ (2 : Nat) ≠ 1 := by
  constructor <;> decide

/-- C8 (amended): `init()` leaves the `_sequence` counter untouched, each
`write()` advances it by one and stamps `mfhd` with the (32-bit truncated)
new value, so within a `CMAFWriter` object lifetime beginning at
construction the emitted sequence numbers are `1, 2, 3, …` — strictly
increasing from 1 (while fewer than `2^32` fragments have been written) —
and a re-`init()` continues the numbering instead of restarting it. -/
theorem C8_cmaf_sequence (ty : MType) (c : Codec) (st : CMAFState) (s : CMAFSample)
    (b : Bool) (samples : List CMAFSample) (hlen : samples.length < 2 ^ 32) :
    (cmafInit st ty c).1.sequence = st.sequence ∧
      mfhdSeqOf (cmafWrite st s).2 = (st.sequence + 1) % 2 ^ 32 ∧
      (cmafWrite st s).1.sequence = st.sequence + 1 ∧
      (cmafWriteRun { sequence := 0, isVideo := b } samples).2 =
        (List.range samples.length).map fun k => k + 1 := by
  refine ⟨?_, mfhdSeqOf_cmafWrite st s, rfl, ?_⟩
  · cases ty <;> simp only [cmafInit] <;> split_ifs <;> rfl
  · rw [cmafWriteRun_eq]
    refine List.map_congr_left fun a ha => ?_
    have : a < samples.length := List.mem_range.mp ha
    have h1 : 0 + 1 + a < 2 ^ 32 := by omega
    rw [Nat.mod_eq_of_lt h1]
    omega

/-- C8, witness: after `init`, two writes emit `mfhd` sequences `[1, 2]`. -/
theorem C8_cmaf_sequence_witness :
    (cmafInit ⟨0, false⟩ MType.audio Codec.aac).1.sequence = 0 ∧
      mfhdSeqOf (cmafWrite ⟨0, false⟩ ⟨0, 20, true, 0, [171]⟩).2 = (0 + 1) % 2 ^ 32 ∧
      (cmafWrite ⟨0, false⟩ ⟨0, 20, true, 0, [171]⟩).1.sequence = 0 + 1 ∧
      (cmafWriteRun { sequence := 0, isVideo := false }
          [⟨0, 20, true, 0, [171]⟩, ⟨20, 20, false, 0, [205]⟩]).2 =
        (List.range 2).map fun k => k + 1 :=
  C8_cmaf_sequence MType.audio Codec.aac ⟨0, false⟩ ⟨0, 20, true, 0, [171]⟩ false
    [⟨0, 20, true, 0, [171]⟩, ⟨20, 20, false, 0, [205]⟩] (by decide)

/-- A byte below 128 is a complete varint field. -/
theorem read7Bit_single (b : Nat) (rest : List Nat) (h : b < 128) :
    read7Bit (b :: rest) = (b, rest) := by
  simp [read7Bit, h, Nat.mod_eq_of_lt h]

/-- Reading back the key just stored in the next-timestamp map. -/
theorem ntGet_ntSet_self (m : List (Nat × Nat)) (k v : Nat) :
    ntGet (ntSet m k v) k = some v := by
  induction m with
  | nil => simp [ntSet, ntGet]
  | cons p rest ih =>
      obtain ⟨k0, v0⟩ := p
      by_cases hk : k0 = k
      · simp [ntSet, ntGet, hk]
      · simp [ntSet, ntGet, hk, ih]

/-- C7: a media packet's absolute time field is consumed from the wire
only when the reader holds no stored next timestamp for its track; with a
stored value `t0` the header continues directly with the
`value = duration << 2 | …` field and the sample is timestamped `t0`;
after the packet the reader stores `nextTime[trackId] = time + duration`;
an Init Tracks packet clears the stored map; and the seed scenario — Init
Tracks (video 1, audio 0), then a video packet `time = 5000`,
`duration = 40`, key frame, then a packet on the same track without a time
field — yields `time = 5040` for the second packet. -/
theorem C7_rts_next_time (st : RTSState) (tid t0 ty b : Nat) (rest frame : List Nat)
    (hb : b = 4 * (tid + 1) + ty) (hb128 : b < 128) (hty : ty = 1 ∨ ty = 2) :
    (ntGet st.nextTimes tid = some t0 →
      ((rtsProcessHeader st (b :: rest) frame).2.head?.bind eventSampleTime = some t0 ∧
        ntGet (rtsProcessHeader st (b :: rest) frame).1.nextTimes tid =
          some (t0 + (read7Bit rest).1 / 4))) ∧
    (ntGet st.nextTimes tid = Option.none →
      ((rtsProcessHeader st (b :: rest) frame).2.head?.bind eventSampleTime =
          some (read7Bit rest).1 ∧
        ntGet (rtsProcessHeader st (b :: rest) frame).1.nextTimes tid =
          some ((read7Bit rest).1 + (read7Bit (read7Bit rest).2).1 / 4))) ∧
    (∀ (v a : Nat) (more : List Nat),
      (rtsProcessHeader st (3 :: v :: a :: more) frame).1.nextTimes = []) ∧
    (rtsRun ⟨[], Option.none⟩
        [[3, 2, 1], [10, 136, 39, 161, 1], [171], [10, 161, 1], [205]] =
      (⟨[(1, 5080)], Option.none⟩,
       [RTSEvent.initTracks 1 0,
        RTSEvent.videoSample 1 ⟨5000, 40, true, 0, [171]⟩,
        RTSEvent.videoSample 1 ⟨5040, 40, true, 0, [205]⟩])) := by
  have hmod : b % 4 = ty := by omega
  have hdiv : b / 4 = tid + 1 := by omega
  refine ⟨fun hlook => ?_, fun hlook => ?_, fun v a more => ?_, by decide⟩
  · simp only [rtsProcessHeader, read7Bit_single b rest hb128, hmod, hdiv,
      Nat.succ_ne_zero, if_false, Nat.add_sub_cancel, hlook]
    rcases hty with rfl | rfl <;>
      simp [eventSampleTime, ntGet_ntSet_self]
  · simp only [rtsProcessHeader, read7Bit_single b rest hb128, hmod, hdiv,
      Nat.succ_ne_zero, if_false, Nat.add_sub_cancel, hlook]
    rcases hty with rfl | rfl <;>
      simp [eventSampleTime, ntGet_ntSet_self]
  · simp [rtsProcessHeader, read7Bit]

/-- C7, witness: track 1 with stored next time 5040 timestamps the next
packet (which carries no time field) at 5040; with no stored time the
field is read from the wire; Init Tracks clears; the seed scenario holds
end to end. -/
theorem C7_rts_next_time_witness :
    ((ntGet [(1, 5040)] 1 = some 5040 →
      ((rtsProcessHeader ⟨[(1, 5040)], Option.none⟩ (10 :: [161, 1]) [205]).2.head?.bind
          eventSampleTime = some 5040 ∧
        ntGet (rtsProcessHeader ⟨[(1, 5040)], Option.none⟩ (10 :: [161, 1]) [205]).1.nextTimes
            1 = some (5040 + (read7Bit [161, 1]).1 / 4))) ∧
    (ntGet [(1, 5040)] 1 = Option.none →
      ((rtsProcessHeader ⟨[(1, 5040)], Option.none⟩ (10 :: [161, 1]) [205]).2.head?.bind
          eventSampleTime = some (read7Bit [161, 1]).1 ∧
        ntGet (rtsProcessHeader ⟨[(1, 5040)], Option.none⟩ (10 :: [161, 1]) [205]).1.nextTimes
            1 = some ((read7Bit [161, 1]).1 + (read7Bit (read7Bit [161, 1]).2).1 / 4))) ∧
    (∀ (v a : Nat) (more : List Nat),
      (rtsProcessHeader ⟨[(1, 5040)], Option.none⟩ (3 :: v :: a :: more)
          [205]).1.nextTimes = []) ∧
    (rtsRun ⟨[], Option.none⟩
        [[3, 2, 1], [10, 136, 39, 161, 1], [171], [10, 161, 1], [205]] =
      (⟨[(1, 5080)], Option.none⟩,
       [RTSEvent.initTracks 1 0,
        RTSEvent.videoSample 1 ⟨5000, 40, true, 0, [171]⟩,
        RTSEvent.videoSample 1 ⟨5040, 40, true, 0, [205]⟩]))) :=
  C7_rts_next_time ⟨[(1, 5040)], Option.none⟩ 1 5040 2 10 [161, 1] [205]
    (by decide) (by decide) (Or.inr rfl)


/-! ### Metadata.fix: sorting and rebuild lemmas -/

/-- `mapSet` writes the given key and leaves every other key alone. -/
theorem mapGet_mapSet (m : List (Int × Nat)) (k : Int) (v : Nat) (k2 : Int) :
    mapGet (mapSet m k v) k2 = if k2 = k then some v else mapGet m k2 := by
  induction m with
  | nil =>
      by_cases h : k2 = k
      · simp [mapSet, mapGet, h]
      · simp [mapSet, mapGet, h, Ne.symm h]
  | cons p rest ih =>
      obtain ⟨k0, v0⟩ := p
      by_cases h0 : k0 = k
      · subst h0
        by_cases h2 : k0 = k2 <;> simp_all [mapSet, mapGet, eq_comm]
      · by_cases h2 : k0 = k2 <;> by_cases h3 : k2 = k <;>
          simp_all [mapSet, mapGet]

/-- `dedupFirstById` only depends on the seen-predicate pointwise. -/
theorem dedupFirstById_congr (pool : List MediaTrack) (s1 s2 : Int → Bool)
    (l : List Nat) (h : ∀ k, s1 k = s2 k) :
    dedupFirstById pool s1 l = dedupFirstById pool s2 l := by
  rw [funext h]

/-- `lastIdx` over a cons, fused with a fallback `Option.or`. -/
theorem lastIdx_cons_or (pool : List MediaTrack) (k : Int) (i : Nat) (rest : List Nat)
    (z : Option Nat) :
    (lastIdx pool k (i :: rest)).or z =
      (lastIdx pool k rest).or (if (trackAt pool i).id = k then some i else z) := by
  simp only [lastIdx]
  rcases lastIdx pool k rest with _ | w <;>
    by_cases hk : (trackAt pool i).id = k <;>
    simp [hk, Option.or]

/-- The rebuild loop of `Metadata.fix`, characterized: the per-kind lists
append the first id-occurrences of the scanned tracks (filtered by kind),
and the map ends up holding the last id-occurrence. -/
theorem fixFold_characterization (pool : List MediaTrack) (l : List Nat) :
    ∀ acc : MetadataModel,
      (l.foldl (fixStep pool) acc).audioTracks =
          acc.audioTracks ++
            (dedupFirstById pool (fun k => (mapGet acc.tracks k).isSome) l).filter
              (fun i => decide ((trackAt pool i).type = MType.audio)) ∧
        (l.foldl (fixStep pool) acc).videoTracks =
          acc.videoTracks ++
            (dedupFirstById pool (fun k => (mapGet acc.tracks k).isSome) l).filter
              (fun i => decide ((trackAt pool i).type = MType.video)) ∧
        (l.foldl (fixStep pool) acc).dataTracks =
          acc.dataTracks ++
            (dedupFirstById pool (fun k => (mapGet acc.tracks k).isSome) l).filter
              (fun i => decide ((trackAt pool i).type = MType.data)) ∧
        ∀ k, mapGet (l.foldl (fixStep pool) acc).tracks k =
          (lastIdx pool k l).or (mapGet acc.tracks k) := by
  induction l with
  | nil =>
      intro acc
      simp [dedupFirstById, lastIdx]
  | cons i rest ih =>
      intro acc
      simp only [List.foldl_cons]
      obtain ⟨iha, ihv, ihd, ihm⟩ := ih (fixStep pool acc i)
      by_cases hseen : (mapGet acc.tracks (trackAt pool i).id).isSome = true
      · -- duplicate id: the map value is replaced in place, the track is
        -- skipped for the lists
        have hfa : (fixStep pool acc i).audioTracks = acc.audioTracks := by
          simp [fixStep, hseen]
        have hfv : (fixStep pool acc i).videoTracks = acc.videoTracks := by
          simp [fixStep, hseen]
        have hfd : (fixStep pool acc i).dataTracks = acc.dataTracks := by
          simp [fixStep, hseen]
        have hfm : (fixStep pool acc i).tracks =
            mapSet acc.tracks (trackAt pool i).id i := by
          simp [fixStep, hseen]
        have hded : ∀ l2 : List Nat,
            dedupFirstById pool
              (fun k => (mapGet (mapSet acc.tracks (trackAt pool i).id i) k).isSome) l2 =
            dedupFirstById pool (fun k => (mapGet acc.tracks k).isSome) l2 := by
          intro l2
          refine dedupFirstById_congr pool _ _ l2 fun k => ?_
          rw [mapGet_mapSet]
          by_cases hk : k = (trackAt pool i).id
          · simp [hk, hseen]
          · simp [hk]
        have hded2 : dedupFirstById pool
            (fun k => (mapGet acc.tracks k).isSome) (i :: rest) =
            dedupFirstById pool (fun k => (mapGet acc.tracks k).isSome) rest := by
          simp [dedupFirstById, hseen]
        refine ⟨?_, ?_, ?_, ?_⟩
        · rw [iha, hfa, hfm, hded, hded2]
        · rw [ihv, hfv, hfm, hded, hded2]
        · rw [ihd, hfd, hfm, hded, hded2]
        · intro k
          rw [ihm k, hfm, mapGet_mapSet, lastIdx_cons_or]
          refine congrArg _ ?_
          by_cases hk : (trackAt pool i).id = k
          · simp [hk]
          · simp [hk]
            intro h
            exact absurd h.symm hk
      · -- fresh id: the track is appended to its kind list
        have hfa : (fixStep pool acc i).audioTracks =
            if (trackAt pool i).type = MType.audio then acc.audioTracks ++ [i]
            else acc.audioTracks := by
          rcases htype : (trackAt pool i).type <;> simp [fixStep, hseen, htype]
        have hfv : (fixStep pool acc i).videoTracks =
            if (trackAt pool i).type = MType.video then acc.videoTracks ++ [i]
            else acc.videoTracks := by
          rcases htype : (trackAt pool i).type <;> simp [fixStep, hseen, htype]
        have hfd : (fixStep pool acc i).dataTracks =
            if (trackAt pool i).type = MType.data then acc.dataTracks ++ [i]
            else acc.dataTracks := by
          rcases htype : (trackAt pool i).type <;> simp [fixStep, hseen, htype]
        have hfm : (fixStep pool acc i).tracks =
            mapSet acc.tracks (trackAt pool i).id i := by
          rcases htype : (trackAt pool i).type <;> simp [fixStep, hseen, htype]
        have hded : ∀ l2 : List Nat,
            dedupFirstById pool
              (fun k => (mapGet (mapSet acc.tracks (trackAt pool i).id i) k).isSome) l2 =
            dedupFirstById pool
              (fun k2 => decide (k2 = (trackAt pool i).id) ||
                (mapGet acc.tracks k2).isSome) l2 := by
          intro l2
          refine dedupFirstById_congr pool _ _ l2 fun k => ?_
          rw [mapGet_mapSet]
          by_cases hk : k = (trackAt pool i).id <;> simp [hk]
        have hded2 : dedupFirstById pool
            (fun k => (mapGet acc.tracks k).isSome) (i :: rest) =
            i :: dedupFirstById pool
              (fun k2 => decide (k2 = (trackAt pool i).id) ||
                (mapGet acc.tracks k2).isSome) rest := by
          simp [dedupFirstById, hseen]
        refine ⟨?_, ?_, ?_, ?_⟩
        · rw [iha, hfa, hfm, hded, hded2, List.filter_cons]
          by_cases htype : (trackAt pool i).type = MType.audio <;>
            simp [htype]
        · rw [ihv, hfv, hfm, hded, hded2, List.filter_cons]
          by_cases htype : (trackAt pool i).type = MType.video <;>
            simp [htype]
        · rw [ihd, hfd, hfm, hded, hded2, List.filter_cons]
          by_cases htype : (trackAt pool i).type = MType.data <;>
            simp [htype]
        · intro k
          rw [ihm k, hfm, mapGet_mapSet, lastIdx_cons_or]
          refine congrArg _ ?_
          by_cases hk : (trackAt pool i).id = k
          · simp [hk]
          · simp [hk]
            intro h
            exact absurd h.symm hk

/-- Inserting is a permutation of consing. -/
theorem insertByBw_perm (pool : List MediaTrack) (x : Nat) (L : List Nat) :
    (insertByBw pool x L).Perm (x :: L) := by
  induction L with
  | nil => simp [insertByBw]
  | cons j rest ih =>
      simp only [insertByBw]
      split_ifs
      · exact List.Perm.refl _
      · exact (List.Perm.cons j ih).trans (List.Perm.swap x j rest)

/-- The stable sort is a permutation of its input. -/
theorem sortByBwDesc_perm (pool : List MediaTrack) (l : List Nat) :
    (sortByBwDesc pool l).Perm l := by
  induction l with
  | nil => simp [sortByBwDesc]
  | cons x rest ih =>
      simp only [sortByBwDesc, List.foldr_cons]
      exact (insertByBw_perm pool x _).trans (List.Perm.cons x ih)

/-- Inserting preserves the descending-bandwidth pairwise order. -/
theorem insertByBw_pairwise (pool : List MediaTrack) (x : Nat) (L : List Nat)
    (hL : L.Pairwise (fun a b =>
      (trackAt pool b).bandwidth ≤ (trackAt pool a).bandwidth)) :
    (insertByBw pool x L).Pairwise (fun a b =>
      (trackAt pool b).bandwidth ≤ (trackAt pool a).bandwidth) := by
  induction L with
  | nil => simp [insertByBw]
  | cons j rest ih =>
      rcases List.pairwise_cons.mp hL with ⟨hj, hrest⟩
      simp only [insertByBw]
      split_ifs with hle
      · refine List.pairwise_cons.mpr ⟨?_, hL⟩
        intro b hb
        rcases List.mem_cons.mp hb with rfl | hb
        · exact hle
        · exact le_trans (hj b hb) hle
      · refine List.pairwise_cons.mpr ⟨?_, ih hrest⟩
        intro b hb
        have hmem := (insertByBw_perm pool x rest).mem_iff.mp hb
        rcases List.mem_cons.mp hmem with rfl | hb2
        · exact le_of_not_le hle
        · exact hj b hb2

/-- The sort output is in descending bandwidth order. -/
theorem sortByBwDesc_pairwise (pool : List MediaTrack) (l : List Nat) :
    (sortByBwDesc pool l).Pairwise (fun a b =>
      (trackAt pool b).bandwidth ≤ (trackAt pool a).bandwidth) := by
  induction l with
  | nil => simp [sortByBwDesc]
  | cons x rest ih =>
      simp only [sortByBwDesc, List.foldr_cons]
      exact insertByBw_pairwise pool x _ ih

/-- Stability, elementwise: at every bandwidth value the insert keeps the
original relative order. -/
theorem filter_insertByBw (pool : List MediaTrack) (c : Int) (x : Nat) (L : List Nat) :
    (insertByBw pool x L).filter (fun i => decide ((trackAt pool i).bandwidth = c)) =
      if (trackAt pool x).bandwidth = c then
        x :: L.filter (fun i => decide ((trackAt pool i).bandwidth = c))
      else L.filter (fun i => decide ((trackAt pool i).bandwidth = c)) := by
  induction L with
  | nil =>
      by_cases hx : (trackAt pool x).bandwidth = c <;>
        simp [insertByBw, List.filter_cons, hx]
  | cons j rest ih =>
      simp only [insertByBw]
      by_cases hle : (trackAt pool j).bandwidth ≤ (trackAt pool x).bandwidth
      · rw [if_pos hle]
        by_cases hx : (trackAt pool x).bandwidth = c <;>
          simp [List.filter_cons, hx]
      · rw [if_neg hle]
        have hjx : (trackAt pool x).bandwidth < (trackAt pool j).bandwidth :=
          not_le.mp hle
        by_cases hj : (trackAt pool j).bandwidth = c
        · have hx : ¬(trackAt pool x).bandwidth = c := by omega
          simp [List.filter_cons, hj, hx, ih]
        · by_cases hx : (trackAt pool x).bandwidth = c <;>
            simp [List.filter_cons, hj, hx, ih]

/-- Stability of the whole sort: at every bandwidth value the output
preserves the input order of the tracks having that bandwidth. -/
theorem sortByBwDesc_stable (pool : List MediaTrack) (l : List Nat) (c : Int) :
    (sortByBwDesc pool l).filter (fun i => decide ((trackAt pool i).bandwidth = c)) =
      l.filter (fun i => decide ((trackAt pool i).bandwidth = c)) := by
  induction l with
  | nil => rfl
  | cons x rest ih =>
      simp only [sortByBwDesc, List.foldr_cons] at *
      rw [filter_insertByBw]
      by_cases hx : (trackAt pool x).bandwidth = c <;>
        simp [List.filter_cons, hx, ih]

/-- C5, counterexample: starting from a metadata state holding a data
track in `dataTracks` and a stale duplicate-id audio entry, `fix()` does
not rebuild `dataTracks` from scratch (the old entry stays and the track
is appended again), and for the duplicated id the `tracks` map ends up
holding the LAST occurrence in sorted order (pool index 2, the
lower-bandwidth copy), not the first (pool index 1) — the per-kind list
does keep the first. -/
theorem C5_metadata_fix_counterexample :
    (metadataFix
        ⟨[⟨7, MType.data, 10⟩, ⟨1, MType.audio, 100⟩, ⟨1, MType.audio, 50⟩],
         [(7, 0), (1, 1)], [2], [], [0],
         fun _ => Option.none, fun _ => Option.none⟩).dataTracks = [0, 0] ∧
      ([0, 0] : List Nat) ≠ [0] ∧
      mapGet
        (metadataFix
          ⟨[⟨7, MType.data, 10⟩, ⟨1, MType.audio, 100⟩, ⟨1, MType.audio, 50⟩],
           [(7, 0), (1, 1)], [2], [], [0],
           fun _ => Option.none, fun _ => Option.none⟩).tracks 1 = some 2 ∧
      (some 2 : Option Nat) ≠ some 1 ∧
      (metadataFix
        ⟨[⟨7, MType.data, 10⟩, ⟨1, MType.audio, 100⟩, ⟨1, MType.audio, 50⟩],
         [(7, 0), (1, 1)], [2], [], [0],
         fun _ => Option.none, fun _ => Option.none⟩).audioTracks = [1] := by
  refine ⟨by decide, by decide, by decide, by decide, by decide⟩

/-- C5 (amended): `Metadata.fix()` stable-sorts all known tracks by
descending bandwidth (the order is descending and, at each bandwidth
value, preserves the collection order `videoTracks ++ audioTracks ++
dataTracks ++ tracks.values()`); it rebuilds `audioTracks` and
`videoTracks` from scratch in that order keeping only the first occurrence
of each id, appends the deduplicated data tracks to the EXISTING
`dataTracks` (which is not cleared), and the rebuilt `tracks` map holds,
for each id, the last occurrence in sorted order. -/
theorem C5_metadata_fix_characterization (m : MetadataModel) :
    (fixOrder m).Pairwise (fun a b =>
        (trackAt m.pool b).bandwidth ≤ (trackAt m.pool a).bandwidth) ∧
      (∀ c : Int,
        (fixOrder m).filter (fun i => decide ((trackAt m.pool i).bandwidth = c)) =
          (m.videoTracks ++ m.audioTracks ++ m.dataTracks ++
            m.tracks.map Prod.snd).filter
            (fun i => decide ((trackAt m.pool i).bandwidth = c))) ∧
      (metadataFix m).audioTracks =
        (dedupFirstById m.pool (fun _ => false) (fixOrder m)).filter
          (fun i => decide ((trackAt m.pool i).type = MType.audio)) ∧
      (metadataFix m).videoTracks =
        (dedupFirstById m.pool (fun _ => false) (fixOrder m)).filter
          (fun i => decide ((trackAt m.pool i).type = MType.video)) ∧
      (metadataFix m).dataTracks =
        m.dataTracks ++
          (dedupFirstById m.pool (fun _ => false) (fixOrder m)).filter
            (fun i => decide ((trackAt m.pool i).type = MType.data)) ∧
      ∀ k, mapGet (metadataFix m).tracks k = lastIdx m.pool k (fixOrder m) := by
  have hfold := fixFold_characterization m.pool (fixOrder m)
    { m with tracks := [], audioTracks := [], videoTracks := [] }
  obtain ⟨iha, ihv, ihd, ihm⟩ := hfold
  have hunf : metadataFix m =
      (fixOrder m).foldl (fixStep m.pool)
        { m with tracks := [], audioTracks := [], videoTracks := [] } := rfl
  have hempty : ∀ l2 : List Nat,
      dedupFirstById m.pool (fun k => (mapGet ([] : List (Int × Nat)) k).isSome) l2 =
        dedupFirstById m.pool (fun _ => false) l2 :=
    fun l2 => dedupFirstById_congr m.pool _ _ l2 fun _ => rfl
  refine ⟨sortByBwDesc_pairwise m.pool _, fun c => sortByBwDesc_stable m.pool _ c,
    ?_, ?_, ?_, ?_⟩
  · rw [hunf, iha, hempty]
    simp
  · rw [hunf, ihv, hempty]
    simp
  · rw [hunf, ihd, hempty]
  · intro k
    rw [hunf, ihm k]
    simp [mapGet, Option.or]
    rcases lastIdx m.pool k (fixOrder m) with _ | w <;> simp [Option.or]

/-- `wellLinked` only inspects the pointer maps at members of the list. -/
theorem wellLinked_congr (up down up2 down2 : Nat → Option Nat) (M : List Nat)
    (hwl : wellLinked up down M)
    (hup : ∀ j ∈ M, up2 j = up j) (hdown : ∀ j ∈ M, down2 j = down j) :
    wellLinked up2 down2 M := by
  obtain ⟨hhd, hlast, hchain⟩ := hwl
  refine ⟨?_, ?_, ?_⟩
  · intro a ha
    rw [hup a (List.mem_of_mem_head? (by rw [ha]; exact rfl))]
    exact hhd a ha
  · intro a ha
    have hmem : a ∈ M := by
      obtain ⟨h1, h2⟩ := List.mem_getLast?_eq_getLast (x := a) (by rw [ha]; exact rfl)
      rw [h2]
      exact List.getLast_mem h1
    rw [hdown a hmem]
    exact hlast a ha
  · rw [List.chain'_iff_get] at hchain ⊢
    intro p hp
    obtain ⟨h1, h2⟩ := hchain p hp
    refine ⟨?_, ?_⟩
    · rw [hdown _ (List.get_mem M _ _)]
      exact h1
    · rw [hup _ (List.get_mem M _ _)]
      exact h2

/-- Appending a fresh element to a well-linked list, while pointing it at
the previous tail and pointing the previous tail back at it, keeps the
list well linked (the update pattern of the `Metadata.fix` loop body). -/
theorem wellLinked_extend (up down up2 down2 : Nat → Option Nat) (L : List Nat) (i : Nat)
    (hwl : wellLinked up down L) (hni : i ∉ L)
    (hup_other : ∀ j, j ≠ i → up2 j = up j)
    (hup_i : up2 i = L.getLast?)
    (hdown_i : down2 i = Option.none)
    (hdown_last : ∀ u, L.getLast? = some u → down2 u = some i)
    (hdown_other : ∀ j, j ≠ i → L.getLast? ≠ some j → down2 j = down j) :
    wellLinked up2 down2 (L ++ [i]) := by
  obtain ⟨hhd, hlast, hchain⟩ := hwl
  refine ⟨?_, ?_, ?_⟩
  · intro a ha
    cases L with
    | nil =>
        simp only [List.nil_append, List.head?_cons, Option.some.injEq] at ha
        subst ha
        rw [hup_i]
        rfl
    | cons x xs =>
        simp only [List.cons_append, List.head?_cons, Option.some.injEq] at ha
        have hax : x ∈ x :: xs := List.mem_cons_self x xs
        have hne : x ≠ i := fun h => hni (h ▸ hax)
        have hax2 : a = x := ha.symm
        rw [hax2, hup_other x hne]
        exact hhd x rfl
  · intro a ha
    rw [List.getLast?_concat] at ha
    obtain rfl : a = i := by injection ha.symm
    exact hdown_i
  · rw [List.chain'_append]
    refine ⟨?_, List.chain'_singleton i, ?_⟩
    · rw [List.chain'_iff_get] at hchain ⊢
      intro p hp
      obtain ⟨h1, h2⟩ := hchain p hp
      have hmem1 : L.get ⟨p, by omega⟩ ∈ L := List.get_mem L _ _
      have hmem2 : L.get ⟨p + 1, by omega⟩ ∈ L := List.get_mem L _ _
      have hne1 : L.get ⟨p, by omega⟩ ≠ i := fun h => hni (h ▸ hmem1)
      have hne2 : L.get ⟨p + 1, by omega⟩ ≠ i := fun h => hni (h ▸ hmem2)
      refine ⟨?_, ?_⟩
      · by_cases hu : L.getLast? = some (L.get ⟨p, by omega⟩)
        · have : down (L.get ⟨p, by omega⟩) = Option.none :=
            hlast _ hu
          rw [this] at h1
          cases h1
        · rw [hdown_other _ hne1 hu]
          exact h1
      · rw [hup_other _ hne2]
        exact h2
    · intro x hx y hy
      simp only [List.head?_cons, Option.mem_def, Option.some.injEq] at hy
      subst hy
      have hx2 : L.getLast? = some x := hx
      exact ⟨hdown_last x hx2, by rw [hup_i]; exact hx2.symm ▸ hx2⟩

/-- `head?` of a nonempty list is its entry at index 0. -/
theorem head?_eq_get_zero (l : List Nat) (h : 0 < l.length) :
    l.head? = some (l.get ⟨0, h⟩) := by
  cases l with
  | nil => simp at h
  | cons x xs => rfl

/-- From a well-linked list in descending bandwidth order, every element
satisfies the claimed neighbour symmetry and bandwidth ordering. -/
theorem chainProp_of_wellLinked (pool : List MediaTrack) (up down : Nat → Option Nat)
    (l : List Nat) (hwl : wellLinked up down l)
    (hpw : l.Pairwise (fun a b =>
      (trackAt pool b).bandwidth ≤ (trackAt pool a).bandwidth)) :
    chainProp pool up down l := by
  obtain ⟨hhd, hlast, hchain⟩ := hwl
  rw [List.chain'_iff_get] at hchain
  rw [List.pairwise_iff_get] at hpw
  intro i hi
  obtain ⟨p, hp⟩ := List.mem_iff_get.mp hi
  constructor
  · intro u hu
    rcases Nat.eq_zero_or_pos p.1 with hp0 | hp0
    · exfalso
      have hhead : l.head? = some i := by
        have hlen : 0 < l.length := by
          have := p.2
          omega
        have hfin : (⟨0, hlen⟩ : Fin l.length) = p := Fin.ext (by simp [hp0])
        rw [head?_eq_get_zero l hlen, hfin, hp]
      rw [hhd i hhead] at hu
      cases hu
    · have hplt : p.1 - 1 < l.length - 1 := by
        have := p.2
        omega
      obtain ⟨hd1, hu1⟩ := hchain (p.1 - 1) hplt
      have hidx : p.1 - 1 + 1 = p.1 := by omega
      have hget : l.get ⟨p.1 - 1 + 1, by omega⟩ = i := by
        rw [← hp]
        congr 1
        exact Fin.ext (by simp [hidx])
      rw [hget] at hd1 hu1
      rw [hu1] at hu
      obtain rfl : u = l.get ⟨p.1 - 1, by omega⟩ := by injection hu.symm
      refine ⟨hd1, ?_⟩
      have := hpw ⟨p.1 - 1, by omega⟩ ⟨p.1, p.2⟩ (Fin.mk_lt_mk.mpr (by omega))
      rw [hp] at this
      exact this
  · intro d hd
    rcases Nat.lt_or_ge p.1 (l.length - 1) with hplast | hplast
    · obtain ⟨hd1, hu1⟩ := hchain p.1 hplast
      have hget : l.get ⟨p.1, by omega⟩ = i := by
        rw [← hp]
      rw [hget] at hd1
      rw [hd1] at hd
      obtain rfl : d = l.get ⟨p.1 + 1, by omega⟩ := by injection hd.symm
      refine ⟨?_, ?_⟩
      · rw [hu1, hget]
      · have := hpw ⟨p.1, p.2⟩ ⟨p.1 + 1, by omega⟩ (Fin.mk_lt_mk.mpr (by omega))
        rw [hp] at this
        exact this
    · exfalso
      have hne : l ≠ [] := by
        intro h
        rw [h] at hi
        cases hi
      have hplen : p.1 = l.length - 1 := by
        have := p.2
        omega
      have hlasti : l.getLast? = some i := by
        rw [List.getLast?_eq_getLast_of_ne_nil hne]
        congr 1
        rw [List.getLast_eq_get l hne, ← hp]
        congr 1
        exact Fin.ext (by simp [hplen])
      rw [hlast i hlasti] at hd
      cases hd

/-- Membership from `getLast?`. -/
theorem mem_of_getLast? {l : List Nat} {a : Nat} (h : l.getLast? = some a) : a ∈ l := by
  obtain ⟨h1, h2⟩ := List.mem_getLast?_eq_getLast (x := a) (by rw [h]; exact rfl)
  rw [h2]
  exact List.getLast_mem h1

/-- Invariant of the `Metadata.fix` loop: starting from a state whose
per-kind lists only hold tracks of their kind, well linked, in descending
bandwidth order, and feeding fresh tracks (ids unseen, indices not yet
listed, bandwidths descending and below everything already listed), the
loop keeps every per-kind list typed, descending, and well linked. -/
theorem fixFold_linked (pool : List MediaTrack) (l : List Nat) :
    ∀ acc : MetadataModel,
      (l.map fun j => (trackAt pool j).id).Nodup →
      l.Pairwise (fun a b => (trackAt pool b).bandwidth ≤ (trackAt pool a).bandwidth) →
      (∀ j ∈ l, mapGet acc.tracks (trackAt pool j).id = Option.none) →
      (∀ j ∈ l, ∀ κ, j ∉ kindList acc κ) →
      (∀ j ∈ l, ∀ κ, ∀ a ∈ kindList acc κ,
        (trackAt pool j).bandwidth ≤ (trackAt pool a).bandwidth) →
      (∀ κ, (∀ a ∈ kindList acc κ, (trackAt pool a).type = κ) ∧
        (kindList acc κ).Pairwise
          (fun a b => (trackAt pool b).bandwidth ≤ (trackAt pool a).bandwidth) ∧
        wellLinked acc.up acc.down (kindList acc κ)) →
      ∀ κ,
        (∀ a ∈ kindList (l.foldl (fixStep pool) acc) κ, (trackAt pool a).type = κ) ∧
        (kindList (l.foldl (fixStep pool) acc) κ).Pairwise
          (fun a b => (trackAt pool b).bandwidth ≤ (trackAt pool a).bandwidth) ∧
        wellLinked (l.foldl (fixStep pool) acc).up (l.foldl (fixStep pool) acc).down
          (kindList (l.foldl (fixStep pool) acc) κ) := by
  induction l with
  | nil =>
      intro acc _ _ _ _ _ hbase κ
      simpa using hbase κ
  | cons i rest ih =>
      intro acc hnodup hpw hfresh hnotin hbwge hbase
      simp only [List.foldl_cons]
      have hfresh_i : mapGet acc.tracks (trackAt pool i).id = Option.none :=
        hfresh i (List.mem_cons_self i rest)
      have hseen : ¬((mapGet acc.tracks (trackAt pool i).id).isSome = true) := by
        rw [hfresh_i]
        simp
      have hni0 : i ∉ kindList acc (trackAt pool i).type :=
        hnotin i (List.mem_cons_self i rest) (trackAt pool i).type
      have hkind : ∀ κ, kindList (fixStep pool acc i) κ =
          if (trackAt pool i).type = κ then kindList acc κ ++ [i]
          else kindList acc κ := by
        intro κ
        rcases htype : (trackAt pool i).type <;> rcases κ <;>
          simp [fixStep, hseen, htype, kindList]
      have htracks : (fixStep pool acc i).tracks =
          mapSet acc.tracks (trackAt pool i).id i := by
        rcases htype : (trackAt pool i).type <;> simp [fixStep, hseen, htype]
      have hup_all : ∀ j, (fixStep pool acc i).up j =
          if j = i then (kindList acc (trackAt pool i).type).getLast?
          else acc.up j := by
        intro j
        rcases htype : (trackAt pool i).type <;>
          simp [fixStep, hseen, htype, kindList]
      have hdown_all : ∀ j, (fixStep pool acc i).down j =
          match (kindList acc (trackAt pool i).type).getLast? with
          | some u => if j = u then some i else if j = i then Option.none else acc.down j
          | Option.none => if j = i then Option.none else acc.down j := by
        intro j
        rcases htype : (trackAt pool i).type
        · simp only [fixStep, hseen, htype, kindList, Bool.false_eq_true, if_false,
            reduceCtorEq]
          rcases acc.audioTracks.getLast? with _ | u <;> rfl
        · simp only [fixStep, hseen, htype, kindList, Bool.false_eq_true, if_false,
            reduceCtorEq]
          rcases acc.videoTracks.getLast? with _ | u <;> rfl
        · simp only [fixStep, hseen, htype, kindList, Bool.false_eq_true, if_false,
            reduceCtorEq]
          rcases acc.dataTracks.getLast? with _ | u <;> rfl
      have hup_other : ∀ j, j ≠ i → (fixStep pool acc i).up j = acc.up j := by
        intro j hj
        rw [hup_all j, if_neg hj]
      have hup_i : (fixStep pool acc i).up i =
          (kindList acc (trackAt pool i).type).getLast? := by
        rw [hup_all i, if_pos rfl]
      have hdown_i : (fixStep pool acc i).down i = Option.none := by
        rw [hdown_all i]
        rcases hlastq : (kindList acc (trackAt pool i).type).getLast? with _ | u
        · simp
        · have hu : u ∈ kindList acc (trackAt pool i).type := mem_of_getLast? hlastq
          have hiu : i ≠ u := fun h => hni0 (h ▸ hu)
          simp [hiu]
      have hdown_last : ∀ u, (kindList acc (trackAt pool i).type).getLast? = some u →
          (fixStep pool acc i).down u = some i := by
        intro u hu
        rw [hdown_all u, hu]
        simp
      have hdown_other : ∀ j, j ≠ i →
          (kindList acc (trackAt pool i).type).getLast? ≠ some j →
          (fixStep pool acc i).down j = acc.down j := by
        intro j hj hlj
        rw [hdown_all j]
        rcases hlastq : (kindList acc (trackAt pool i).type).getLast? with _ | u
        · simp [hj]
        · rw [hlastq] at hlj
          have hju : j ≠ u := fun h => hlj (by rw [h])
          simp [hju, hj]
      obtain ⟨hid_i_not, hnodup'⟩ := List.nodup_cons.mp hnodup
      simp only at hid_i_not
      obtain ⟨hpw_head, hpw'⟩ := List.pairwise_cons.mp hpw
      have hji : ∀ j ∈ rest, j ≠ i := by
        intro j hj h
        subst h
        exact hid_i_not (List.mem_map_of_mem _ hj)
      have hfresh' : ∀ j ∈ rest,
          mapGet (fixStep pool acc i).tracks (trackAt pool j).id = Option.none := by
        intro j hj
        rw [htracks, mapGet_mapSet]
        have hne : (trackAt pool j).id ≠ (trackAt pool i).id := by
          intro h
          refine hid_i_not ?_
          rw [← h]
          exact List.mem_map_of_mem _ hj
        rw [if_neg hne]
        exact hfresh j (List.mem_cons_of_mem i hj)
      have hnotin' : ∀ j ∈ rest, ∀ κ, j ∉ kindList (fixStep pool acc i) κ := by
        intro j hj κ
        rw [hkind κ]
        by_cases ht : (trackAt pool i).type = κ
        · rw [if_pos ht]
          intro hmem
          rcases List.mem_append.mp hmem with h1 | h2
          · exact hnotin j (List.mem_cons_of_mem i hj) κ h1
          · simp only [List.mem_singleton] at h2
            exact hji j hj h2
        · rw [if_neg ht]
          exact hnotin j (List.mem_cons_of_mem i hj) κ
      have hbwge' : ∀ j ∈ rest, ∀ κ, ∀ a ∈ kindList (fixStep pool acc i) κ,
          (trackAt pool j).bandwidth ≤ (trackAt pool a).bandwidth := by
        intro j hj κ a ha
        rw [hkind κ] at ha
        by_cases ht : (trackAt pool i).type = κ
        · rw [if_pos ht] at ha
          rcases List.mem_append.mp ha with h1 | h2
          · exact hbwge j (List.mem_cons_of_mem i hj) κ a h1
          · simp only [List.mem_singleton] at h2
            rw [h2]
            exact hpw_head j hj
        · rw [if_neg ht] at ha
          exact hbwge j (List.mem_cons_of_mem i hj) κ a ha
      have hbase' : ∀ κ,
          (∀ a ∈ kindList (fixStep pool acc i) κ, (trackAt pool a).type = κ) ∧
          (kindList (fixStep pool acc i) κ).Pairwise
            (fun a b => (trackAt pool b).bandwidth ≤ (trackAt pool a).bandwidth) ∧
          wellLinked (fixStep pool acc i).up (fixStep pool acc i).down
            (kindList (fixStep pool acc i) κ) := by
        intro κ
        obtain ⟨hT, hP, hW⟩ := hbase κ
        by_cases ht : (trackAt pool i).type = κ
        · have hkindκ : kindList (fixStep pool acc i) κ = kindList acc κ ++ [i] := by
            rw [hkind κ, if_pos ht]
          refine ⟨?_, ?_, ?_⟩
          · intro a ha
            rw [hkindκ] at ha
            rcases List.mem_append.mp ha with h1 | h2
            · exact hT a h1
            · simp only [List.mem_singleton] at h2
              subst h2
              exact ht
          · rw [hkindκ, List.pairwise_append]
            refine ⟨hP, List.pairwise_singleton _ _, ?_⟩
            intro a ha b hb
            simp only [List.mem_singleton] at hb
            rw [hb]
            exact hbwge i (List.mem_cons_self i rest) κ a ha
          · rw [hkindκ]
            subst ht
            refine wellLinked_extend acc.up acc.down _ _ _ i hW hni0
              hup_other hup_i hdown_i hdown_last hdown_other
        · have hkindκ : kindList (fixStep pool acc i) κ = kindList acc κ := by
            rw [hkind κ, if_neg ht]
          refine ⟨?_, ?_, ?_⟩
          · intro a ha
            rw [hkindκ] at ha
            exact hT a ha
          · rw [hkindκ]
            exact hP
          · rw [hkindκ]
            refine wellLinked_congr acc.up acc.down _ _ _ hW ?_ ?_
            · intro j hjκ
              have hji2 : j ≠ i := by
                intro h
                subst h
                exact hnotin j (List.mem_cons_self j rest) κ hjκ
              exact hup_other j hji2
            · intro j hjκ
              have hji2 : j ≠ i := by
                intro h
                subst h
                exact hnotin j (List.mem_cons_self j rest) κ hjκ
              have hlj : (kindList acc (trackAt pool i).type).getLast? ≠ some j := by
                intro h
                have hjmem : j ∈ kindList acc (trackAt pool i).type := mem_of_getLast? h
                have ha1 : (trackAt pool j).type = (trackAt pool i).type :=
                  (hbase (trackAt pool i).type).1 j hjmem
                have ha2 : (trackAt pool j).type = κ := hT j hjκ
                exact ht (ha1.symm.trans ha2)
              exact hdown_other j hji2 hlj
      exact ih (fixStep pool acc i) hnodup' hpw' hfresh' hnotin' hbwge' hbase'

/-- The empty list is trivially well linked. -/
theorem wellLinked_nil (up down : Nat → Option Nat) : wellLinked up down [] := by
  refine ⟨?_, ?_, ?_⟩ <;> simp [wellLinked]

/-- C6, counterexample: two audio tracks with EQUAL bandwidth (a normal
rendition ladder tie) are chained by `fix()`; the strict inequality
`up.bandwidth > track.bandwidth` claimed for every chain neighbour fails
on this fresh, well-formed metadata. -/
theorem C6_strict_counterexample :
    (metadataFix
        ⟨[⟨1, MType.audio, 100⟩, ⟨2, MType.audio, 100⟩], [(1, 0), (2, 1)],
         [], [], [], fun _ => Option.none, fun _ => Option.none⟩).audioTracks =
        [0, 1] ∧
      (metadataFix
        ⟨[⟨1, MType.audio, 100⟩, ⟨2, MType.audio, 100⟩], [(1, 0), (2, 1)],
         [], [], [], fun _ => Option.none, fun _ => Option.none⟩).up 1 = some 0 ∧
      ¬((trackAt [⟨1, MType.audio, 100⟩, ⟨2, MType.audio, 100⟩] 1).bandwidth <
        (trackAt [⟨1, MType.audio, 100⟩, ⟨2, MType.audio, 100⟩] 0).bandwidth) := by
  refine ⟨by decide, by decide, by decide⟩

/-- C6 (amended): after `Metadata.fix()` on a freshly parsed metadata
(empty per-kind lists, id-keyed track map), every track in a per-kind
`up`/`down` chain satisfies `up.bandwidth ≥ track.bandwidth ≥
down.bandwidth` whenever the neighbour exists (equality possible on
bandwidth ties), together with the pointer symmetry `up.down == track`
and `down.up == track`. -/
theorem C6_track_chain (m : MetadataModel)
    (ha : m.audioTracks = []) (hv : m.videoTracks = []) (hd : m.dataTracks = [])
    (hkeys : (m.tracks.map Prod.fst).Nodup)
    (hcoh : ∀ p ∈ m.tracks, (trackAt m.pool p.2).id = p.1) :
    chainProp m.pool (metadataFix m).up (metadataFix m).down
        (metadataFix m).audioTracks ∧
      chainProp m.pool (metadataFix m).up (metadataFix m).down
        (metadataFix m).videoTracks ∧
      chainProp m.pool (metadataFix m).up (metadataFix m).down
        (metadataFix m).dataTracks := by
  have hperm : (fixOrder m).Perm
      (m.videoTracks ++ m.audioTracks ++ m.dataTracks ++ m.tracks.map Prod.snd) :=
    sortByBwDesc_perm m.pool _
  have hids : ((fixOrder m).map fun j => (trackAt m.pool j).id).Nodup := by
    refine ((hperm.map _).nodup_iff).mpr ?_
    rw [ha, hv, hd]
    simp only [List.nil_append, List.map_map]
    have hmapeq : m.tracks.map ((fun j => (trackAt m.pool j).id) ∘ Prod.snd) =
        m.tracks.map Prod.fst :=
      List.map_congr_left fun p hp => hcoh p hp
    rw [hmapeq]
    exact hkeys
  have hpwS := sortByBwDesc_pairwise m.pool
    (m.videoTracks ++ m.audioTracks ++ m.dataTracks ++ m.tracks.map Prod.snd)
  have hkind0 : ∀ κ, kindList
      { m with tracks := [], audioTracks := [], videoTracks := [] } κ = [] := by
    intro κ
    rcases κ <;> simp [kindList, hd]
  have hfin := fixFold_linked m.pool (fixOrder m)
    { m with tracks := [], audioTracks := [], videoTracks := [] }
    hids hpwS
    (fun j _ => rfl)
    (fun j _ κ => by rw [hkind0 κ]; exact List.not_mem_nil j)
    (fun j _ κ a ha2 => absurd (by rwa [hkind0 κ] at ha2) (List.not_mem_nil a))
    (fun κ => by
      rw [hkind0 κ]
      exact ⟨fun a ha2 => absurd ha2 (List.not_mem_nil a), List.Pairwise.nil,
        wellLinked_nil _ _⟩)
  have hunf : metadataFix m = (fixOrder m).foldl (fixStep m.pool)
      { m with tracks := [], audioTracks := [], videoTracks := [] } := rfl
  refine ⟨?_, ?_, ?_⟩
  · have h := hfin MType.audio
    rw [hunf]
    exact chainProp_of_wellLinked m.pool _ _ _ h.2.2 h.2.1
  · have h := hfin MType.video
    rw [hunf]
    exact chainProp_of_wellLinked m.pool _ _ _ h.2.2 h.2.1
  · have h := hfin MType.data
    rw [hunf]
    exact chainProp_of_wellLinked m.pool _ _ _ h.2.2 h.2.1

/-- C6, witness: a fresh two-rendition audio metadata (bandwidths 100 and
50) is chained with full symmetry and non-increasing bandwidths. -/
theorem C6_track_chain_witness :
    chainProp [⟨1, MType.audio, 100⟩, ⟨2, MType.audio, 50⟩]
        (metadataFix
          ⟨[⟨1, MType.audio, 100⟩, ⟨2, MType.audio, 50⟩], [(1, 0), (2, 1)],
           [], [], [], fun _ => Option.none, fun _ => Option.none⟩).up
        (metadataFix
          ⟨[⟨1, MType.audio, 100⟩, ⟨2, MType.audio, 50⟩], [(1, 0), (2, 1)],
           [], [], [], fun _ => Option.none, fun _ => Option.none⟩).down
        (metadataFix
          ⟨[⟨1, MType.audio, 100⟩, ⟨2, MType.audio, 50⟩], [(1, 0), (2, 1)],
           [], [], [], fun _ => Option.none, fun _ => Option.none⟩).audioTracks ∧
      chainProp [⟨1, MType.audio, 100⟩, ⟨2, MType.audio, 50⟩]
        (metadataFix
          ⟨[⟨1, MType.audio, 100⟩, ⟨2, MType.audio, 50⟩], [(1, 0), (2, 1)],
           [], [], [], fun _ => Option.none, fun _ => Option.none⟩).up
        (metadataFix
          ⟨[⟨1, MType.audio, 100⟩, ⟨2, MType.audio, 50⟩], [(1, 0), (2, 1)],
           [], [], [], fun _ => Option.none, fun _ => Option.none⟩).down
        (metadataFix
          ⟨[⟨1, MType.audio, 100⟩, ⟨2, MType.audio, 50⟩], [(1, 0), (2, 1)],
           [], [], [], fun _ => Option.none, fun _ => Option.none⟩).videoTracks ∧
      chainProp [⟨1, MType.audio, 100⟩, ⟨2, MType.audio, 50⟩]
        (metadataFix
          ⟨[⟨1, MType.audio, 100⟩, ⟨2, MType.audio, 50⟩], [(1, 0), (2, 1)],
           [], [], [], fun _ => Option.none, fun _ => Option.none⟩).up
        (metadataFix
          ⟨[⟨1, MType.audio, 100⟩, ⟨2, MType.audio, 50⟩], [(1, 0), (2, 1)],
           [], [], [], fun _ => Option.none, fun _ => Option.none⟩).down
        (metadataFix
          ⟨[⟨1, MType.audio, 100⟩, ⟨2, MType.audio, 50⟩], [(1, 0), (2, 1)],
           [], [], [], fun _ => Option.none, fun _ => Option.none⟩).dataTracks :=
  C6_track_chain
    ⟨[⟨1, MType.audio, 100⟩, ⟨2, MType.audio, 50⟩], [(1, 0), (2, 1)],
     [], [], [], fun _ => Option.none, fun _ => Option.none⟩
    rfl rfl rfl (by decide) (by decide)

end Wrts
